import Mathlib

/-!
# TI MCRC CRC-64 driver (`drivers/crypto/ti/mcrc.c`)

A shallow embedding of the checksum engine of the driver, and theorems about it.

* Machine integers are `Nat`; a reduction `% 2 ^ w` is written where the C type can wrap.
* `void __iomem *regs` is a register file `Nat → Nat` indexed by byte offset.
* `const u8 *d8` is a `u8_ptr`: the address together with the bytes stored from it upward.
* An `int` return value is an `Int`; an out-parameter is returned next to it.
* The loop of `mcrc_update` runs on fuel (one unit per input byte) and yields `none` when the
  fuel is used up before the loop condition fails.
* The `*_ev` functions are the same functions with a ghost log of the `burst_update`
  calls, the PSA register stores and the software steps of a run.
-/

namespace Mcrc

/-! ## Constants and register map -/

/-- Kernel `BIT(n)`. -/
def BIT (n : Nat) : Nat := 1 <<< n

/-- Offset of CRC Global Control Register 0. -/
def CRC_CTRL0 : Nat := 0x0000

/-- PSA software reset bit of channel `ch` (`ch - 1` is only evaluated for `ch ≥ 1`). -/
def CH_PSA_SWRE (ch : Nat) : Nat := BIT ((ch - 1) <<< 3)

/-- Offset of CRC Global Control Register 2. -/
def CRC_CTRL2 : Nat := 0x0010

/-- Mode field of channel `ch` in `CRC_CTRL2`. -/
def CH_MODE (ch m : Nat) : Nat := m <<< ((ch - 1) <<< 3)

/-- Offset of the PSA signature register of channel `ch`. -/
def PSA_SIGREGL (ch : Nat) : Nat := (0x6 + (4 * (ch - 1))) <<< 4

def MCRC_ALG_MASK : Nat := 0x8000000000000000

def MCRC_CRC64_POLY : Nat := 0x000000000000001b

def CHKSUM_DIGEST_SIZE : Nat := 8

/-- Kernel errno `EINVAL`. -/
def EINVAL : Int := 22

def MCRC_MODE_DATA_CAPTURE : Nat := 0
def MCRC_MODE_AUTO : Nat := 1
def MCRC_MODE_SEMI_CPU : Nat := 2
def MCRC_MODE_FULL_CPU : Nat := 3
def MCRC_MODE_INVALID : Nat := 4

def MCRC_CHANNEL_1 : Nat := 1
def MCRC_CHANNEL_2 : Nat := 2
def MCRC_CHANNEL_3 : Nat := 3
def MCRC_CHANNEL_4 : Nat := 4
def MCRC_CHANNEL_INVALID : Nat := 5

/-! ## Bit-serial accumulator -/

/-- One pass of the `for (j = 0; j < 8; j++)` body of `mcrc_calculate_sw_crc`;
the pair is the C variables `(crc, bit)`. -/
def sw_crc_body (byte : Nat) (v : Nat × Nat) (j : Nat) : Nat × Nat :=
  let crc := v.1
  let bit := crc &&& MCRC_ALG_MASK
  let crc := (crc <<< 1) % 2 ^ 64
  let bit := if byte &&& (0x80 >>> j) ≠ 0 then bit ^^^ MCRC_ALG_MASK else bit
  let crc := if bit ≠ 0 then crc ^^^ MCRC_CRC64_POLY else crc
  (crc, bit)

/-- The function `mcrc_calculate_sw_crc(u64 crc, u8 byte)`. -/
def mcrc_calculate_sw_crc (crc : Nat) (byte : Nat) : Nat :=
  ((List.range 8).foldl (sw_crc_body byte) (crc, 0)).1

/-! ## Memory and device accessors -/

/-- A `const u8 *`: its address and the bytes stored from that address upward. -/
structure u8_ptr where
  addr : Nat
  mem : List Nat

/-- Pointer arithmetic `p + n`. -/
def u8_ptr.add (p : u8_ptr) (n : Nat) : u8_ptr := ⟨p.addr + n, p.mem.drop n⟩

/-- Dereference `*p`. -/
def u8_ptr.deref (p : u8_ptr) : Nat := p.mem.headD 0

/-- Modelled from the spec: `cpu_to_be64p((u64 *)d8)` of the kernel headers, the 64-bit
word whose big-endian encoding is the 8 bytes at `d8`. -/
def cpu_to_be64p (p : u8_ptr) : Nat :=
  p.mem.getD 0 0 * 2 ^ 56 + p.mem.getD 1 0 * 2 ^ 48 + p.mem.getD 2 0 * 2 ^ 40 +
  p.mem.getD 3 0 * 2 ^ 32 + p.mem.getD 4 0 * 2 ^ 24 + p.mem.getD 5 0 * 2 ^ 16 +
  p.mem.getD 6 0 * 2 ^ 8 + p.mem.getD 7 0

/-- The 8 bytes of the big-endian encoding of a 64-bit word, first byte first. -/
def be64_bytes (w : Nat) : List Nat :=
  [w / 2 ^ 56 % 256, w / 2 ^ 48 % 256, w / 2 ^ 40 % 256, w / 2 ^ 32 % 256,
   w / 2 ^ 24 % 256, w / 2 ^ 16 % 256, w / 2 ^ 8 % 256, w % 256]

/-- Modelled from the spec: the Block Accumulator Interface of the device, which is
hardware and not code. One 64-bit word stored to a PSA signature register leaves the
register as if the 8 bytes of the big-endian encoding of the word had been folded
through 8 bit-serial steps. -/
def psa_compress (sig word : Nat) : Nat :=
  (be64_bytes word).foldl mcrc_calculate_sw_crc sig

/-- Whether `off` is the PSA signature register of one of the four channels. -/
def is_psa_sigreg (off : Nat) : Bool :=
  [MCRC_CHANNEL_1, MCRC_CHANNEL_2, MCRC_CHANNEL_3, MCRC_CHANNEL_4].any
    fun ch => off == PSA_SIGREGL ch

/-- Whether a value stored to `CRC_CTRL0` resets the PSA signature register at `off`. -/
def psa_reset_hit (val off : Nat) : Bool :=
  [MCRC_CHANNEL_1, MCRC_CHANNEL_2, MCRC_CHANNEL_3, MCRC_CHANNEL_4].any
    fun ch => off == PSA_SIGREGL ch && (val &&& CH_PSA_SWRE ch != 0)

/-- Kernel `readl_relaxed(regs + off)`. -/
def readl_relaxed (regs : Nat → Nat) (off : Nat) : Nat := regs off

/-- Kernel `readq_relaxed(regs + off)`. -/
def readq_relaxed (regs : Nat → Nat) (off : Nat) : Nat := regs off

/-- Modelled from the spec: `writel_relaxed(val, regs + off)` on the device, which is
hardware and not code. The register takes the value; a store to `CRC_CTRL0` with the PSA
software reset bit of a channel set resets the signature register of that channel to zero. -/
def writel_relaxed (val off : Nat) (regs : Nat → Nat) : Nat → Nat :=
  fun a =>
    if a = off then val
    else if off = CRC_CTRL0 ∧ psa_reset_hit val a = true then 0
    else regs a

/-- Modelled from the spec: `writeq_relaxed(val, regs + off)` on the device. A store to a
PSA signature register compresses the word into the signature (`psa_compress`). -/
def writeq_relaxed (val off : Nat) (regs : Nat → Nat) : Nat → Nat :=
  fun a =>
    if a = off then (if is_psa_sigreg off = true then psa_compress (regs off) val else val)
    else regs a

/-- Modelled from the spec: `get_unaligned_le32(p)` of the kernel headers,
`p[0] | p[1] << 8 | p[2] << 16 | p[3] << 24`. -/
def get_unaligned_le32 (p : List Nat) : Nat :=
  p.getD 0 0 ||| p.getD 1 0 <<< 8 ||| p.getD 2 0 <<< 16 ||| p.getD 3 0 <<< 24

/-- Modelled from the spec: `put_unaligned_le64(val, p)` of the kernel headers, which
stores `(u8)(val >> 8 * i)` to `p[i]` for `i = 0..7` and touches nothing else. -/
def put_unaligned_le64 (val : Nat) (p : List Nat) : List Nat :=
  [val % 256, val >>> 8 % 256, val >>> 16 % 256, val >>> 24 % 256,
   val >>> 32 % 256, val >>> 40 % 256, val >>> 48 % 256, val >>> 56 % 256] ++ p.drop 8

/-- Kernel `ALIGN_DOWN(x, a)` for a power of two `a`. -/
def ALIGN_DOWN (x a : Nat) : Nat := x / a * a

/-! ## Driver state -/

/-- What the operations reach through `desc` and the global device handle. -/
structure mcrc_state where
  /-- The register file `dev_data->regs`. -/
  regs : Nat → Nat
  /-- The field `key` of `struct mcrc_ctx`. -/
  key : Nat
  /-- The field `signature` of `struct mcrc_desc_ctx`. -/
  signature : Nat

/-! ## The driver functions -/

/-- The function `mcrc_set_mode(regs, channel, mode)`; the locals are `u32`. -/
def mcrc_set_mode (regs : Nat → Nat) (channel mode : Nat) : Int × (Nat → Nat) :=
  if mode < 0 ∨ mode ≥ MCRC_MODE_INVALID then (-EINVAL, regs)
  else if channel ≤ 0 ∨ channel ≥ MCRC_CHANNEL_INVALID then (-EINVAL, regs)
  else
    let crc_ctrl2_reg := readl_relaxed regs CRC_CTRL2
    let mode_set_val := (crc_ctrl2_reg ||| CH_MODE channel mode) % 2 ^ 32
    (0, writel_relaxed mode_set_val CRC_CTRL2 regs)

/-- The function `mcrc_reset_signature(regs, channel)`; the locals are `u32`, and
`~CH_PSA_SWRE(channel)` is the complement of an `unsigned long`. -/
def mcrc_reset_signature (regs : Nat → Nat) (channel : Nat) : Int × (Nat → Nat) :=
  if channel ≤ 0 ∨ channel ≥ MCRC_CHANNEL_INVALID then (-EINVAL, regs)
  else
    let crc_ctrl0_reg := readl_relaxed regs CRC_CTRL0
    let reset_val := (crc_ctrl0_reg ||| CH_PSA_SWRE channel) % 2 ^ 32
    let reset_undo_val := (crc_ctrl0_reg &&& (2 ^ 64 - 1 - CH_PSA_SWRE channel)) % 2 ^ 32
    let regs := writel_relaxed reset_val CRC_CTRL0 regs
    let regs := writel_relaxed reset_undo_val CRC_CTRL0 regs
    (0, regs)

/-- The block loop of `mcrc_calculate_crc`:
`for (; length >= sizeof(u64); d8 += sizeof(u64), length -= sizeof(u64))`.
Returns the register file, `d8`, `length` and `signature` on exit. -/
def crc_block_loop (psa_reg : Nat) :
    (Nat → Nat) → u8_ptr → Nat → Nat → (Nat → Nat) × u8_ptr × Nat × Nat
  | regs, d8, n + 8, _ =>
    let regs := writeq_relaxed (cpu_to_be64p d8) psa_reg regs
    let signature := readq_relaxed regs psa_reg
    crc_block_loop psa_reg regs (d8.add 8) n signature
  | regs, d8, length, signature => (regs, d8, length, signature)

/-- The tail loop of `mcrc_calculate_crc`:
`while (length--) signature = mcrc_calculate_sw_crc(signature, *d8++)`. -/
def crc_tail_loop : u8_ptr → Nat → Nat → Nat
  | d8, n + 1, signature =>
    crc_tail_loop (d8.add 1) n (mcrc_calculate_sw_crc signature d8.deref)
  | _, 0, signature => signature

/-- The function `mcrc_calculate_crc(regs, channel, d8, length, crc64)`; the third
component is the content of `*crc64` on return. -/
def mcrc_calculate_crc (regs : Nat → Nat) (channel : Nat) (d8 : u8_ptr) (length : Nat)
    (crc64 : Nat) : Int × (Nat → Nat) × Nat :=
  if channel ≤ 0 ∨ channel ≥ MCRC_CHANNEL_INVALID then (-EINVAL, regs, crc64)
  else
    let psa_reg := PSA_SIGREGL channel
    let r := crc_block_loop psa_reg regs d8 length 0
    let signature := crc_tail_loop r.2.1 r.2.2.1 r.2.2.2
    (0, r.1, signature)

/-- The function `mcrc_setkey(tfm, key, keylen)`. -/
def mcrc_setkey (st : mcrc_state) (key : List Nat) (keylen : Nat) : Int × mcrc_state :=
  if keylen ≠ 4 then (-EINVAL, st)
  else (0, { st with key := get_unaligned_le32 key })

/-- The function `mcrc_init(desc)`. -/
def mcrc_init (st : mcrc_state) : Int × mcrc_state :=
  let r := mcrc_set_mode st.regs MCRC_CHANNEL_1 MCRC_MODE_FULL_CPU
  if r.1 ≠ 0 then (r.1, { st with regs := r.2 })
  else
    let r := mcrc_reset_signature r.2 MCRC_CHANNEL_1
    (r.1, { st with regs := r.2 })

/-- The function `burst_update(desc, d8, length)`. -/
def burst_update (st : mcrc_state) (d8 : u8_ptr) (length : Nat) : Int × mcrc_state :=
  let r := mcrc_calculate_crc st.regs MCRC_CHANNEL_1 d8 length st.signature
  (r.1, { st with regs := r.2.1, signature := r.2.2 })

/-- The loop of `mcrc_update`:
`for (...; rem_sz; rem_sz -= size, cur += size, size = min(rem_sz, burst_sz))`,
entered with `rem_sz`, `cur` and `size` already set. `rem_sz` is an `unsigned int` and
`size` a `size_t`, so `rem_sz -= size` is computed modulo `2 ^ 64` and kept modulo
`2 ^ 32`. The first argument is the fuel. -/
def mcrc_update_loop (burst_sz : Nat) :
    Nat → mcrc_state → Nat → u8_ptr → Nat → Option (Int × mcrc_state)
  | fuel, st, rem_sz, cur, size =>
    if rem_sz = 0 then some (0, st)
    else
      match fuel with
      | 0 => none
      | fuel + 1 =>
        let r := burst_update st cur size
        if r.1 ≠ 0 then some r
        else
          let rem_sz := (rem_sz + 2 ^ 64 - size) % 2 ^ 32
          mcrc_update_loop burst_sz fuel r.2 rem_sz (cur.add size) (min rem_sz burst_sz)

/-- The function `mcrc_update(desc, d8, length)`; `burst_size` is the module parameter,
read once on entry. The first `size` is `burst_sz + (size_t)d8 - ALIGN_DOWN((size_t)d8, 8)`
in `size_t` arithmetic, the subtraction written as the addition of the complement
modulo `2 ^ 64`. The loop gets one unit of fuel per input byte. -/
def mcrc_update (burst_size : Nat) (st : mcrc_state) (d8 : u8_ptr) (length : Nat) :
    Option (Int × mcrc_state) :=
  let burst_sz := burst_size
  if burst_sz = 0 then some (burst_update st d8 length)
  else
    let size := min length ((burst_sz + d8.addr + (2 ^ 64 - ALIGN_DOWN d8.addr 8)) % 2 ^ 64)
    mcrc_update_loop burst_sz length st length d8 size

/-- The function `mcrc_final(desc, out)`; the third component is the buffer `out`. -/
def mcrc_final (st : mcrc_state) (out : List Nat) : Int × mcrc_state × List Nat :=
  (0, st, put_unaligned_le64 st.signature out)

/-- The function `mcrc_finup(desc, data, length, out)`. -/
def mcrc_finup (burst_size : Nat) (st : mcrc_state) (data : u8_ptr) (length : Nat)
    (out : List Nat) : Option (Int × mcrc_state × List Nat) :=
  match mcrc_update burst_size st data length with
  | none => none
  | some r => if r.1 ≠ 0 then some (r.1, r.2, out) else some (mcrc_final r.2 out)

/-- The function `mcrc_digest(desc, data, length, out)`. -/
def mcrc_digest (burst_size : Nat) (st : mcrc_state) (data : u8_ptr) (length : Nat)
    (out : List Nat) : Option (Int × mcrc_state × List Nat) :=
  let r := mcrc_init st
  if r.1 ≠ 0 then some (r.1, r.2, out) else mcrc_finup burst_size r.2 data length out

/-- The digest bytes an operation left in `out`, when it returned. -/
def out_of (r : Option (Int × mcrc_state × List Nat)) : Option (List Nat) :=
  r.map fun x => x.2.2


/-! ## Reference definitions used to state the properties -/

/-- The step of the Bit-Serial Accumulator for one input bit, as the specification words
it: take the feedback from the top bit, shift left by one, flip the feedback when the
input bit is set, and XOR the generator constant in when the feedback is true. -/
def advance_bit (signature : Nat) (input_bit : Bool) : Nat :=
  let feedback := signature.testBit 63
  let signature := (signature <<< 1) % 2 ^ 64
  let feedback := if input_bit then !feedback else feedback
  if feedback then signature ^^^ 0x1B else signature

/-- The Bit-Serial Accumulator `advance(signature, byte)` as the specification words it:
the 8 bits of `byte`, most significant first. -/
def advance (signature byte : Nat) : Nat :=
  [0x80, 0x40, 0x20, 0x10, 0x08, 0x04, 0x02, 0x01].foldl
    (fun s m => advance_bit s (byte &&& m != 0)) signature

/-- Little-endian encoding of a 64-bit value, 8 bytes. -/
def le64_encode (v : Nat) : List Nat :=
  (List.range 8).map fun i => v / 2 ^ (8 * i) % 256

/-- Little-endian decoding of the first 8 bytes of a buffer. -/
def le64_decode (p : List Nat) : Nat :=
  p.getD 0 0 + 2 ^ 8 * p.getD 1 0 + 2 ^ 16 * p.getD 2 0 + 2 ^ 24 * p.getD 3 0 +
  2 ^ 32 * p.getD 4 0 + 2 ^ 40 * p.getD 5 0 + 2 ^ 48 * p.getD 6 0 + 2 ^ 56 * p.getD 7 0

/-- The state with the stored key replaced. -/
def set_key (st : mcrc_state) (k : Nat) : mcrc_state := { st with key := k }

/-- The calls `mcrc_update(S1); ...; mcrc_update(Sn)` of a streaming caller, each piece
given as pointer and length, stopping at the first failure. -/
def mcrc_updates (burst_size : Nat) :
    mcrc_state → List (u8_ptr × Nat) → Option (Int × mcrc_state)
  | st, [] => some (0, st)
  | st, p :: ps =>
    match mcrc_update burst_size st p.1 p.2 with
    | none => none
    | some r => if r.1 ≠ 0 then some r else mcrc_updates burst_size r.2 ps

/-- The call sequence `mcrc_init; mcrc_update(S1); ...; mcrc_update(Sn); mcrc_final` of a
streaming caller. -/
def mcrc_stream (burst_size : Nat) (st : mcrc_state) (pieces : List (u8_ptr × Nat))
    (out : List Nat) : Option (Int × mcrc_state × List Nat) :=
  let r := mcrc_init st
  if r.1 ≠ 0 then some (r.1, r.2, out)
  else
    match mcrc_updates burst_size r.2 pieces with
    | none => none
    | some r => if r.1 ≠ 0 then some (r.1, r.2, out) else some (mcrc_final r.2 out)

/-- A context left by an earlier computation: signature 1, registers and key zero. -/
def used_state : mcrc_state := ⟨fun _ => 0, 0, 1⟩

/-- A fresh context: everything zero. -/
def zero_state : mcrc_state := ⟨fun _ => 0, 0, 0⟩

/-- An 8-byte digest buffer holding zeros. -/
def zero_out : List Nat := [0, 0, 0, 0, 0, 0, 0, 0]

/-! ## Ghost log of a run

The functions of the engine once more, each returning next to its result the list of
events of the run. Erasing the log gives back the function (lemmas `*_ev_fst`). -/

/-- What the log of a run records. -/
inductive mcrc_event where
  /-- The call `burst_update(desc, cur, size)`. -/
  | burst_call (cur : u8_ptr) (size : Nat)
  /-- The store `writeq_relaxed(cpu_to_be64p((u64 *)d8), psa_reg)` with `d8` at `addr`. -/
  | psa_store (addr : Nat)
  /-- The call `mcrc_calculate_sw_crc(signature, *d8)` with `d8` at `addr`. -/
  | sw_step (addr : Nat)

/-- The `(cur, size)` of the `burst_update` calls of a log, in order. -/
def burst_calls (log : List mcrc_event) : List (u8_ptr × Nat) :=
  log.filterMap fun e =>
    match e with
    | mcrc_event.burst_call cur size => some (cur, size)
    | _ => none

/-- The addresses of the 8-byte words stored to the PSA register in a log, in order. -/
def psa_stores (log : List mcrc_event) : List Nat :=
  log.filterMap fun e =>
    match e with
    | mcrc_event.psa_store addr => some addr
    | _ => none

/-- The addresses of the bytes that went through `mcrc_calculate_sw_crc` in a log. -/
def sw_steps (log : List mcrc_event) : List Nat :=
  log.filterMap fun e =>
    match e with
    | mcrc_event.sw_step addr => some addr
    | _ => none

/-- The block loop of `mcrc_calculate_crc` with its log. -/
def crc_block_loop_ev (psa_reg : Nat) :
    (Nat → Nat) → u8_ptr → Nat → Nat →
      ((Nat → Nat) × u8_ptr × Nat × Nat) × List mcrc_event
  | regs, d8, n + 8, _ =>
    let regs := writeq_relaxed (cpu_to_be64p d8) psa_reg regs
    let signature := readq_relaxed regs psa_reg
    let r := crc_block_loop_ev psa_reg regs (d8.add 8) n signature
    (r.1, mcrc_event.psa_store d8.addr :: r.2)
  | regs, d8, length, signature => ((regs, d8, length, signature), [])

/-- The tail loop of `mcrc_calculate_crc` with its log. -/
def crc_tail_loop_ev : u8_ptr → Nat → Nat → Nat × List mcrc_event
  | d8, n + 1, signature =>
    let r := crc_tail_loop_ev (d8.add 1) n (mcrc_calculate_sw_crc signature d8.deref)
    (r.1, mcrc_event.sw_step d8.addr :: r.2)
  | _, 0, signature => (signature, [])

/-- The function `mcrc_calculate_crc` with its log. -/
def mcrc_calculate_crc_ev (regs : Nat → Nat) (channel : Nat) (d8 : u8_ptr) (length : Nat)
    (crc64 : Nat) : (Int × (Nat → Nat) × Nat) × List mcrc_event :=
  if channel ≤ 0 ∨ channel ≥ MCRC_CHANNEL_INVALID then ((-EINVAL, regs, crc64), [])
  else
    let psa_reg := PSA_SIGREGL channel
    let r := crc_block_loop_ev psa_reg regs d8 length 0
    let t := crc_tail_loop_ev r.1.2.1 r.1.2.2.1 r.1.2.2.2
    ((0, r.1.1, t.1), r.2 ++ t.2)

/-- The function `burst_update` with its log, which starts with the call itself. -/
def burst_update_ev (st : mcrc_state) (d8 : u8_ptr) (length : Nat) :
    (Int × mcrc_state) × List mcrc_event :=
  let r := mcrc_calculate_crc_ev st.regs MCRC_CHANNEL_1 d8 length st.signature
  ((r.1.1, { st with regs := r.1.2.1, signature := r.1.2.2 }),
    mcrc_event.burst_call d8 length :: r.2)

/-- The loop of `mcrc_update` with its log. -/
def mcrc_update_loop_ev (burst_sz : Nat) :
    Nat → mcrc_state → Nat → u8_ptr → Nat → Option ((Int × mcrc_state) × List mcrc_event)
  | fuel, st, rem_sz, cur, size =>
    if rem_sz = 0 then some ((0, st), [])
    else
      match fuel with
      | 0 => none
      | fuel + 1 =>
        let r := burst_update_ev st cur size
        if r.1.1 ≠ 0 then some r
        else
          let rem_sz := (rem_sz + 2 ^ 64 - size) % 2 ^ 32
          (mcrc_update_loop_ev burst_sz fuel r.1.2 rem_sz (cur.add size)
            (min rem_sz burst_sz)).map fun r2 => (r2.1, r.2 ++ r2.2)

/-- The function `mcrc_update` with its log. -/
def mcrc_update_ev (burst_size : Nat) (st : mcrc_state) (d8 : u8_ptr) (length : Nat) :
    Option ((Int × mcrc_state) × List mcrc_event) :=
  let burst_sz := burst_size
  if burst_sz = 0 then some (burst_update_ev st d8 length)
  else
    let size := min length ((burst_sz + d8.addr + (2 ^ 64 - ALIGN_DOWN d8.addr 8)) % 2 ^ 64)
    mcrc_update_loop_ev burst_sz length st length d8 size

/-- The addresses `d8, d8 + 8, ...` of the whole 8-byte words of a range of `length` bytes
that starts at `d8`. -/
def word_addrs (d8 : u8_ptr) (length : Nat) : List Nat :=
  (List.range (length / 8)).map fun k => d8.addr + 8 * k

/-- The addresses of the `length % 8` bytes that follow the whole words of a range. -/
def tail_addrs (d8 : u8_ptr) (length : Nat) : List Nat :=
  (List.range (length % 8)).map fun i => d8.addr + 8 * (length / 8) + i

/-- A sub-range starts where the one before it ends. -/
def follows (x y : u8_ptr × Nat) : Prop := y.1 = x.1.add x.2

/-- The 256-entry table of the byte-wise form, `T[i] = mcrc_calculate_sw_crc(0, i)`. -/
def crc_table : List Nat :=
  (List.range 256).map fun i => mcrc_calculate_sw_crc 0 i

/-! ## Lemmas -/

theorem and_alg_mask (crc : Nat) :
    crc &&& MCRC_ALG_MASK = if crc.testBit 63 then MCRC_ALG_MASK else 0 := by
  have h : MCRC_ALG_MASK = 2 ^ 63 := by decide
  rw [h, Nat.and_two_pow]
  cases crc.testBit 63 <;> simp

theorem sw_crc_body_fst (byte : Nat) (v : Nat × Nat) (j : Nat) :
    (sw_crc_body byte v j).1 = advance_bit v.1 (byte &&& (0x80 >>> j) != 0) := by
  unfold sw_crc_body advance_bit
  simp only [and_alg_mask]
  by_cases hb : byte &&& (0x80 >>> j) = 0 <;> cases h : v.1.testBit 63 <;>
    simp [hb, h, MCRC_ALG_MASK, MCRC_CRC64_POLY]

theorem sw_crc_eq_advance (s b : Nat) : mcrc_calculate_sw_crc s b = advance s b := by
  have hr : List.range 8 = [0, 1, 2, 3, 4, 5, 6, 7] := by decide
  simp only [mcrc_calculate_sw_crc, advance, hr, List.foldl_cons, List.foldl_nil,
    sw_crc_body_fst]
  rfl

theorem mem_take_mono {m n : Nat} (h : m ≤ n) (S : List Nat) (b : Nat)
    (hb : b ∈ S.take m) : b ∈ S.take n := by
  have : S.take m = (S.take n).take m := by rw [List.take_take, Nat.min_eq_left h]
  rw [this] at hb
  exact List.mem_of_mem_take hb

theorem be64_bytes_cpu_to_be64p (a : Nat) (S : List Nat) (h8 : 8 ≤ S.length)
    (hb : ∀ b ∈ S.take 8, b < 256) : be64_bytes (cpu_to_be64p ⟨a, S⟩) = S.take 8 := by
  match S, h8 with
  | b0 :: b1 :: b2 :: b3 :: b4 :: b5 :: b6 :: b7 :: T, _ =>
    have h0 : b0 < 256 := hb b0 (by simp)
    have h1 : b1 < 256 := hb b1 (by simp)
    have h2 : b2 < 256 := hb b2 (by simp)
    have h3 : b3 < 256 := hb b3 (by simp)
    have h4 : b4 < 256 := hb b4 (by simp)
    have h5 : b5 < 256 := hb b5 (by simp)
    have h6 : b6 < 256 := hb b6 (by simp)
    have h7 : b7 < 256 := hb b7 (by simp)
    simp only [be64_bytes, cpu_to_be64p, List.getD_cons_zero, List.getD_cons_succ, List.take_succ_cons, List.take_zero]
    refine congrArg₂ _ (by omega) (congrArg₂ _ (by omega) (congrArg₂ _ (by omega)
      (congrArg₂ _ (by omega) (congrArg₂ _ (by omega) (congrArg₂ _ (by omega)
      (congrArg₂ _ (by omega) (congrArg₂ _ (by omega) rfl)))))))

theorem crc_tail_loop_eq (n : Nat) : ∀ (a : Nat) (S : List Nat) (sig : Nat), n ≤ S.length →
    crc_tail_loop ⟨a, S⟩ n sig = (S.take n).foldl mcrc_calculate_sw_crc sig := by
  induction n with
  | zero => intro a S sig _; simp [crc_tail_loop]
  | succ n ih =>
    intro a S sig h
    match S, h with
    | b :: T, h =>
      simp only [crc_tail_loop, u8_ptr.add, u8_ptr.deref, List.drop_succ_cons, List.drop_zero,
        List.headD_cons, List.take_succ_cons, List.foldl_cons]
      exact ih _ T _ (by simpa using h)

theorem writeq_psa (val off : Nat) (regs : Nat → Nat) (h : is_psa_sigreg off = true) :
    writeq_relaxed val off regs = Function.update regs off (psa_compress (regs off) val) := by
  funext a
  by_cases ha : a = off <;> simp [writeq_relaxed, Function.update, ha, h]

theorem crc_block_loop_eq (psa_reg : Nat) (hp : is_psa_sigreg psa_reg = true) (length : Nat) :
    ∀ (regs : Nat → Nat) (a : Nat) (S : List Nat) (sig : Nat), length ≤ S.length →
    (∀ b ∈ S.take length, b < 256) →
    crc_block_loop psa_reg regs ⟨a, S⟩ length sig =
      (Function.update regs psa_reg
          ((S.take (8 * (length / 8))).foldl mcrc_calculate_sw_crc (regs psa_reg)),
        ⟨a + 8 * (length / 8), S.drop (8 * (length / 8))⟩, length % 8,
        if 8 ≤ length then
          (S.take (8 * (length / 8))).foldl mcrc_calculate_sw_crc (regs psa_reg)
        else sig) := by
  induction length using Nat.strong_induction_on with
  | _ length ih =>
    intro regs a S sig hlen hb
    by_cases h8 : 8 ≤ length
    · obtain ⟨n, rfl⟩ : ∃ n, length = n + 8 := ⟨length - 8, by omega⟩
      rw [crc_block_loop]
      have hrt : be64_bytes (cpu_to_be64p ⟨a, S⟩) = S.take 8 :=
        be64_bytes_cpu_to_be64p a S (by omega) (fun b hb' => hb b
          (mem_take_mono (by omega) S b hb'))
      have hq : (n + 8) / 8 = n / 8 + 1 := by omega
      have hm : (n + 8) % 8 = n % 8 := by omega
      have hb2 : ∀ b ∈ (S.drop 8).take n, b < 256 := by
        intro b hb'
        apply hb b
        have : S.take (n + 8) = S.take 8 ++ (S.drop 8).take n := by
          rw [Nat.add_comm, List.take_add]
        rw [this]; exact List.mem_append_right _ hb'
      simp only [u8_ptr.add, readq_relaxed]
      rw [ih n (by omega) _ _ _ _ (by simp; omega) hb2, writeq_psa _ _ _ hp]
      simp only [Function.update_same, Function.update_idem, psa_compress, hrt, hq, hm,
        ← List.foldl_append, Nat.mul_add, Nat.mul_one, List.drop_drop]
      have ht : List.take 8 S ++ List.take (8 * (n / 8)) (List.drop 8 S)
          = List.take (8 * (n / 8) + 8) S := by
        rw [Nat.add_comm, List.take_add]
      have e1 : a + 8 + 8 * (n / 8) = a + (8 * (n / 8) + 8) := by omega
      have e2 : 8 + 8 * (n / 8) = 8 * (n / 8) + 8 := by omega
      simp only [ht, e1, e2]
      by_cases hn : 8 ≤ n
      · simp [hn]
      · have : n / 8 = 0 := by omega
        simp [hn, this]
    · rw [crc_block_loop.eq_2 _ _ _ _ _ (by intro n hn; omega)]
      have h0 : length / 8 = 0 := by omega
      have h1 : length % 8 = length := by omega
      simp [h0, h1, h8]


theorem is_psa_sigreg_ch1 : is_psa_sigreg (PSA_SIGREGL MCRC_CHANNEL_1) = true := by decide

theorem mcrc_calculate_crc_eq (regs : Nat → Nat) (a : Nat) (S : List Nat) (length crc64 : Nat)
    (hlen : length ≤ S.length) (hb : ∀ b ∈ S.take length, b < 256) :
    mcrc_calculate_crc regs MCRC_CHANNEL_1 ⟨a, S⟩ length crc64 =
      (0, Function.update regs (PSA_SIGREGL MCRC_CHANNEL_1)
            ((S.take (8 * (length / 8))).foldl mcrc_calculate_sw_crc
              (regs (PSA_SIGREGL MCRC_CHANNEL_1))),
        ((S.drop (8 * (length / 8))).take (length % 8)).foldl mcrc_calculate_sw_crc
          (if 8 ≤ length then
            (S.take (8 * (length / 8))).foldl mcrc_calculate_sw_crc
              (regs (PSA_SIGREGL MCRC_CHANNEL_1))
          else 0)) := by
  have hc : ¬ (MCRC_CHANNEL_1 ≤ 0 ∨ MCRC_CHANNEL_1 ≥ MCRC_CHANNEL_INVALID) := by decide
  unfold mcrc_calculate_crc
  rw [if_neg hc]
  simp only [crc_block_loop_eq _ is_psa_sigreg_ch1 length regs a S 0 hlen hb]
  rw [crc_tail_loop_eq]
  simp only [List.length_drop]
  have := Nat.mod_add_div length 8
  omega

theorem take_blocks_append_tail (S : List Nat) (length : Nat) :
    S.take (8 * (length / 8)) ++ (S.drop (8 * (length / 8))).take (length % 8)
      = S.take length := by
  rw [← List.take_add]
  congr 1
  have := Nat.mod_add_div length 8
  omega

/-- From a zero PSA register, `mcrc_calculate_crc` leaves in `*crc64` the bit-serial fold
of the whole range. -/
theorem mcrc_calculate_crc_from_zero (regs : Nat → Nat) (a : Nat) (S : List Nat)
    (length crc64 : Nat) (hlen : length ≤ S.length) (hb : ∀ b ∈ S.take length, b < 256)
    (h0 : regs (PSA_SIGREGL MCRC_CHANNEL_1) = 0) :
    (mcrc_calculate_crc regs MCRC_CHANNEL_1 ⟨a, S⟩ length crc64).2.2 =
      (S.take length).foldl mcrc_calculate_sw_crc 0 := by
  rw [mcrc_calculate_crc_eq regs a S length crc64 hlen hb, h0]
  simp only
  by_cases h8 : 8 ≤ length
  · rw [if_pos h8, ← List.foldl_append, take_blocks_append_tail]
  · have hq : length / 8 = 0 := by omega
    have hm : length % 8 = length := by omega
    simp [h8, hq, hm]

theorem testBit_one_succ (i : Nat) : Nat.testBit 1 (i + 1) = false := by
  rw [Nat.testBit_succ]; simp

theorem or_one_mod_and_one (x : Nat) : (x ||| 1) % 2 ^ 32 &&& 1 = 1 := by
  apply Nat.eq_of_testBit_eq
  intro i
  simp only [Nat.testBit_and, Nat.testBit_mod_two_pow, Nat.testBit_or]
  cases i with
  | zero => simp
  | succ i => simp [testBit_one_succ]

theorem and_not_one_mod_and_one (x : Nat) : (x &&& (2 ^ 64 - 1 - 1)) % 2 ^ 32 &&& 1 = 0 := by
  apply Nat.eq_of_testBit_eq
  intro i
  simp only [Nat.testBit_and, Nat.testBit_mod_two_pow, Nat.zero_testBit]
  cases i with
  | zero => simp
  | succ i => simp [testBit_one_succ]

theorem mcrc_init_eq (st : mcrc_state) :
    (mcrc_init st).1 = 0 ∧ (mcrc_init st).2.regs (PSA_SIGREGL MCRC_CHANNEL_1) = 0 ∧
      (mcrc_init st).2.key = st.key ∧ (mcrc_init st).2.signature = st.signature := by
  have hm : ¬ (MCRC_MODE_FULL_CPU < 0 ∨ MCRC_MODE_FULL_CPU ≥ MCRC_MODE_INVALID) := by decide
  have hc : ¬ (MCRC_CHANNEL_1 ≤ 0 ∨ MCRC_CHANNEL_1 ≥ MCRC_CHANNEL_INVALID) := by decide
  simp only [mcrc_init, mcrc_set_mode, mcrc_reset_signature, if_neg hm, if_neg hc]
  refine ⟨by simp, ?_, by simp, by simp⟩
  have h1 := or_one_mod_and_one
  have h2 := and_not_one_mod_and_one
  simp only [Nat.reducePow, Nat.reduceSub] at h1 h2
  simp [writel_relaxed, readl_relaxed, psa_reset_hit, PSA_SIGREGL, MCRC_CHANNEL_1, CRC_CTRL0,
    CRC_CTRL2, CH_PSA_SWRE, BIT, MCRC_CHANNEL_2, MCRC_CHANNEL_3, MCRC_CHANNEL_4, h1, h2]



theorem set_key_self (st : mcrc_state) : set_key st st.key = st := rfl

theorem burst_update_ret (st : mcrc_state) (d8 : u8_ptr) (length : Nat) :
    (burst_update st d8 length).1 = 0 := by
  have hc : ¬ (MCRC_CHANNEL_1 ≤ 0 ∨ MCRC_CHANNEL_1 ≥ MCRC_CHANNEL_INVALID) := by decide
  unfold burst_update mcrc_calculate_crc
  rw [if_neg hc]

theorem burst_update_set_key (st : mcrc_state) (k : Nat) (d8 : u8_ptr) (length : Nat) :
    burst_update (set_key st k) d8 length =
      ((burst_update st d8 length).1, set_key (burst_update st d8 length).2 k) := rfl

theorem mcrc_update_loop_set_key (burst_sz k : Nat) (fuel : Nat) :
    ∀ (st : mcrc_state) (rem_sz : Nat) (cur : u8_ptr) (size : Nat),
    mcrc_update_loop burst_sz fuel (set_key st k) rem_sz cur size =
      (mcrc_update_loop burst_sz fuel st rem_sz cur size).map
        fun r => (r.1, set_key r.2 k) := by
  induction fuel with
  | zero =>
    intro st rem_sz cur size
    unfold mcrc_update_loop
    by_cases h : rem_sz = 0 <;> simp [h]
  | succ fuel ih =>
    intro st rem_sz cur size
    unfold mcrc_update_loop
    by_cases h : rem_sz = 0
    · simp [h]
    · simp only [if_neg h, burst_update_set_key, burst_update_ret, ne_eq, not_true_eq_false,
        if_false, ih]

theorem mcrc_update_loop_returns (burst_sz : Nat) (hbs : 0 < burst_sz) (fuel : Nat) :
    ∀ (st : mcrc_state) (rem_sz : Nat) (cur : u8_ptr) (size : Nat),
    rem_sz ≤ fuel → rem_sz < 2 ^ 32 → size ≤ rem_sz → (0 < rem_sz → 0 < size) →
    ∃ st', mcrc_update_loop burst_sz fuel st rem_sz cur size = some (0, st') := by
  induction fuel with
  | zero =>
    intro st rem_sz cur size h1 _ _ _
    have h : rem_sz = 0 := by omega
    unfold mcrc_update_loop
    exact ⟨st, by simp [h]⟩
  | succ fuel ih =>
    intro st rem_sz cur size h1 h2 h3 h4
    unfold mcrc_update_loop
    by_cases h : rem_sz = 0
    · exact ⟨st, by simp [h]⟩
    · simp only [if_neg h, burst_update_ret, ne_eq, not_true_eq_false, if_false]
      have hs : 0 < size := h4 (by omega)
      have hr : (rem_sz + 2 ^ 64 - size) % 2 ^ 32 = rem_sz - size := by omega
      rw [hr]
      exact ih _ _ _ _ (by omega) (by omega) (Nat.min_le_left _ _) (by
        intro h0
        exact Nat.lt_min.mpr ⟨h0, hbs⟩)

theorem first_size_eq (burst_sz addr : Nat) (hb : burst_sz < 2 ^ 32) (ha : addr < 2 ^ 64) :
    (burst_sz + addr + (2 ^ 64 - ALIGN_DOWN addr 8)) % 2 ^ 64 = burst_sz + addr % 8 := by
  unfold ALIGN_DOWN
  omega

theorem mcrc_update_returns (burst_size : Nat) (st : mcrc_state) (d8 : u8_ptr) (length : Nat)
    (hb : burst_size < 2 ^ 32) (ha : d8.addr < 2 ^ 64) (hl : length < 2 ^ 32) :
    ∃ st', mcrc_update burst_size st d8 length = some (0, st') := by
  unfold mcrc_update
  by_cases h0 : burst_size = 0
  · refine ⟨(burst_update st d8 length).2, ?_⟩
    simp only [h0, if_true]
    rw [← burst_update_ret st d8 length]
  · simp only [if_neg h0]
    apply mcrc_update_loop_returns burst_size (by omega) length st length d8 _ (le_refl _) hl
      (Nat.min_le_left _ _)
    intro hpos
    rw [first_size_eq burst_size d8.addr hb ha]
    exact Nat.lt_min.mpr ⟨hpos, by omega⟩


theorem mcrc_update_set_key (burst_size k : Nat) (st : mcrc_state) (d8 : u8_ptr)
    (length : Nat) :
    mcrc_update burst_size (set_key st k) d8 length =
      (mcrc_update burst_size st d8 length).map fun r => (r.1, set_key r.2 k) := by
  unfold mcrc_update
  by_cases h0 : burst_size = 0
  · simp only [h0, if_true, burst_update_set_key, Option.map_some']
  · simp only [if_neg h0, mcrc_update_loop_set_key]

theorem mcrc_finup_set_key (burst_size k : Nat) (st : mcrc_state) (d8 : u8_ptr)
    (length : Nat) (out : List Nat) :
    mcrc_finup burst_size (set_key st k) d8 length out =
      (mcrc_finup burst_size st d8 length out).map fun r => (r.1, set_key r.2.1 k, r.2.2) := by
  unfold mcrc_finup
  rw [mcrc_update_set_key]
  cases mcrc_update burst_size st d8 length with
  | none => rfl
  | some r =>
    by_cases h : r.1 = 0 <;> simp [h, mcrc_final, set_key]

theorem mcrc_init_set_key (st : mcrc_state) (k : Nat) :
    mcrc_init (set_key st k) = ((mcrc_init st).1, set_key (mcrc_init st).2 k) := by
  unfold mcrc_init
  by_cases h : (mcrc_set_mode st.regs MCRC_CHANNEL_1 MCRC_MODE_FULL_CPU).1 = 0 <;>
    simp [h, set_key]

theorem mcrc_digest_set_key (burst_size k : Nat) (st : mcrc_state) (d8 : u8_ptr)
    (length : Nat) (out : List Nat) :
    mcrc_digest burst_size (set_key st k) d8 length out =
      (mcrc_digest burst_size st d8 length out).map
        fun r => (r.1, set_key r.2.1 k, r.2.2) := by
  unfold mcrc_digest
  rw [mcrc_init_set_key]
  by_cases h : (mcrc_init st).1 = 0
  · simp only [h, ne_eq, not_true_eq_false, if_false, mcrc_finup_set_key]
  · simp [h]

theorem mcrc_digest_returns (burst_size : Nat) (st : mcrc_state) (d8 : u8_ptr)
    (length : Nat) (out : List Nat)
    (hb : burst_size < 2 ^ 32) (ha : d8.addr < 2 ^ 64) (hl : length < 2 ^ 32) :
    ∃ r, mcrc_digest burst_size st d8 length out = some r := by
  unfold mcrc_digest
  by_cases h : (mcrc_init st).1 = 0
  · obtain ⟨st', hst'⟩ := mcrc_update_returns burst_size (mcrc_init st).2 d8 length hb ha hl
    simp [h, mcrc_finup, hst']
  · simp [h]

theorem put_unaligned_le64_eq (v : Nat) (p : List Nat) :
    put_unaligned_le64 v p = le64_encode v ++ p.drop 8 := by
  have hr : List.range 8 = [0, 1, 2, 3, 4, 5, 6, 7] := by decide
  simp [put_unaligned_le64, le64_encode, hr, Nat.shiftRight_eq_div_pow]

theorem mcrc_digest_burst0 (st : mcrc_state) (addr : Nat) (S out : List Nat)
    (hS : ∀ b ∈ S, b < 256) :
    mcrc_digest 0 st ⟨addr, S⟩ S.length out =
      some (0,
        { (mcrc_init st).2 with
          regs := Function.update (mcrc_init st).2.regs (PSA_SIGREGL MCRC_CHANNEL_1)
            ((S.take (8 * (S.length / 8))).foldl mcrc_calculate_sw_crc 0)
          signature := S.foldl mcrc_calculate_sw_crc 0 },
        put_unaligned_le64 (S.foldl mcrc_calculate_sw_crc 0) out) := by
  obtain ⟨hi1, hi2, -, -⟩ := mcrc_init_eq st
  have hb : ∀ b ∈ S.take S.length, b < 256 := fun b h => hS b (List.mem_of_mem_take h)
  have hsig := mcrc_calculate_crc_from_zero (mcrc_init st).2.regs addr S S.length
    (mcrc_init st).2.signature (le_refl _) hb hi2
  have hregs := mcrc_calculate_crc_eq (mcrc_init st).2.regs addr S S.length
    (mcrc_init st).2.signature (le_refl _) hb
  rw [List.take_length] at hsig
  simp only [mcrc_digest, hi1, ne_eq, not_true_eq_false, if_false, mcrc_finup, mcrc_update,
    if_true, burst_update_ret, mcrc_final, burst_update, hsig]
  rw [hregs, hi2]
  simp


theorem or_shiftLeft_eq_add (a b k : Nat) (h : a < 2 ^ k) :
    a ||| b <<< k = a + 2 ^ k * b := by
  rw [Nat.shiftLeft_eq, Nat.or_comm, Nat.mul_comm, ← Nat.mul_add_lt_is_or h, Nat.add_comm]

theorem get_unaligned_le32_eq (p : List Nat) (hp : ∀ b ∈ p, b < 256) :
    get_unaligned_le32 p =
      p.getD 0 0 + 2 ^ 8 * p.getD 1 0 + 2 ^ 16 * p.getD 2 0 + 2 ^ 24 * p.getD 3 0 := by
  have hb : ∀ i, p.getD i 0 < 256 := by
    intro i
    rw [List.getD_eq_getElem?_getD]
    cases h : p[i]? with
    | none => simp
    | some b => simpa using hp b (List.getElem?_mem h)
  have h0 := hb 0
  have h1 := hb 1
  have h2 := hb 2
  unfold get_unaligned_le32
  rw [or_shiftLeft_eq_add _ _ 8 (by omega), or_shiftLeft_eq_add _ _ 16 (by omega),
    or_shiftLeft_eq_add _ _ 24 (by omega)]

theorem and_0xff (x : Nat) : x &&& 0xFF = x % 256 := Nat.and_pow_two_sub_one_eq_mod x 8

theorem le64_decode_put (v : Nat) (p : List Nat) (hv : v < 2 ^ 64) :
    le64_decode (put_unaligned_le64 v p) = v := by
  simp only [le64_decode, put_unaligned_le64, List.cons_append, List.getD_cons_zero,
    List.getD_cons_succ, Nat.shiftRight_eq_div_pow]
  omega


theorem out_of_map_set_key (x : Option (Int × mcrc_state × List Nat)) (k : Nat) :
    out_of (x.map fun r => (r.1, set_key r.2.1 k, r.2.2)) = out_of x := by
  cases x <;> rfl

theorem mcrc_update_key (burst_size : Nat) (st : mcrc_state) (d8 : u8_ptr) (length : Nat)
    (r : Int × mcrc_state) (h : mcrc_update burst_size st d8 length = some r) :
    r.2.key = st.key := by
  have h2 := mcrc_update_set_key burst_size st.key st d8 length
  rw [set_key_self, h] at h2
  simp only [Option.map_some', Option.some.injEq] at h2
  have h3 := congrArg (fun x => x.2.key) h2
  simpa [set_key] using h3

theorem advance_bit_closed (x : Nat) (i : Bool) :
    advance_bit x i = ((x <<< 1) % 2 ^ 64) ^^^ (if xor (x.testBit 63) i then 0x1B else 0) := by
  unfold advance_bit
  cases i <;> cases x.testBit 63 <;> simp

theorem shl1_mod_xor (a b : Nat) :
    ((a ^^^ b) <<< 1) % 2 ^ 64 = ((a <<< 1) % 2 ^ 64) ^^^ ((b <<< 1) % 2 ^ 64) := by
  apply Nat.eq_of_testBit_eq
  intro i
  simp only [Nat.testBit_mod_two_pow, Nat.testBit_xor, Nat.testBit_shiftLeft]
  by_cases h1 : i < 64 <;> by_cases h2 : 1 ≤ i <;> simp [h1, h2]

theorem xor_xor_xor_comm (p q c d : Nat) : (p ^^^ c) ^^^ (q ^^^ d) = (p ^^^ q) ^^^ (c ^^^ d) := by
  apply Nat.eq_of_testBit_eq
  intro i
  simp only [Nat.testBit_xor]
  cases p.testBit i <;> cases q.testBit i <;> cases c.testBit i <;> cases d.testBit i <;> rfl

theorem advance_bit_xor (a b : Nat) (i j : Bool) :
    advance_bit (a ^^^ b) (xor i j) = advance_bit a i ^^^ advance_bit b j := by
  simp only [advance_bit_closed, shl1_mod_xor, Nat.testBit_xor]
  rw [xor_xor_xor_comm]
  congr 1
  cases i <;> cases j <;> cases a.testBit 63 <;> cases b.testBit 63 <;> rfl

theorem and_mask_ne_zero (b k : Nat) : (b &&& 2 ^ k != 0) = b.testBit k := by
  rw [Nat.and_two_pow]
  cases b.testBit k <;> simp

theorem advance_eq_testBit (s b : Nat) :
    advance s b =
      advance_bit (advance_bit (advance_bit (advance_bit (advance_bit (advance_bit
        (advance_bit (advance_bit s (b.testBit 7)) (b.testBit 6)) (b.testBit 5))
        (b.testBit 4)) (b.testBit 3)) (b.testBit 2)) (b.testBit 1)) (b.testBit 0) := by
  have h7 := and_mask_ne_zero b 7
  have h6 := and_mask_ne_zero b 6
  have h5 := and_mask_ne_zero b 5
  have h4 := and_mask_ne_zero b 4
  have h3 := and_mask_ne_zero b 3
  have h2 := and_mask_ne_zero b 2
  have h1 := and_mask_ne_zero b 1
  have h0 := and_mask_ne_zero b 0
  simp only [Nat.reducePow] at h7 h6 h5 h4 h3 h2 h1 h0
  unfold advance
  simp only [List.foldl_cons, List.foldl_nil, h7, h6, h5, h4, h3, h2, h1, h0]

theorem advance_xor (a b x y : Nat) :
    advance (a ^^^ b) (x ^^^ y) = advance a x ^^^ advance b y := by
  simp only [advance_eq_testBit, Nat.testBit_xor, advance_bit_xor]

theorem sw_crc_xor (a b x y : Nat) :
    mcrc_calculate_sw_crc (a ^^^ b) (x ^^^ y) =
      mcrc_calculate_sw_crc a x ^^^ mcrc_calculate_sw_crc b y := by
  simp only [sw_crc_eq_advance, advance_xor]

theorem sw_fold_xor (A : List Nat) : ∀ (B : List Nat) (a b : Nat), A.length = B.length →
    (List.zipWith (fun x y => x ^^^ y) A B).foldl mcrc_calculate_sw_crc (a ^^^ b) =
      A.foldl mcrc_calculate_sw_crc a ^^^ B.foldl mcrc_calculate_sw_crc b := by
  induction A with
  | nil => intro B a b h; cases B <;> simp_all
  | cons x A ih =>
    intro B a b h
    cases B with
    | nil => simp at h
    | cons y B =>
      simp only [List.zipWith_cons_cons, List.foldl_cons]
      rw [sw_crc_xor]
      exact ih B _ _ (by simpa using h)


theorem advance_bit_zero (t : Bool) : advance_bit 0 t = if t then 0x1B else 0 := by
  cases t <;> rfl

theorem advance_bit_step (X H : Nat) :
    advance_bit (X ^^^ H) false =
      ((X <<< 1) % 2 ^ 64) ^^^ advance_bit H (X.testBit 63) := by
  have h1 := advance_bit_xor X H false false
  have h2 := advance_bit_xor H 0 false (X.testBit 63)
  simp only [Bool.xor_false, Bool.false_xor, Nat.xor_zero] at h1 h2
  rw [h1, h2, advance_bit_closed X false, advance_bit_zero, Bool.xor_false]
  rw [Nat.xor_assoc, Nat.xor_comm (advance_bit H false)]

theorem shl_mod_succ (x k : Nat) :
    (((x <<< k) % 2 ^ 64) <<< 1) % 2 ^ 64 = (x <<< (k + 1)) % 2 ^ 64 := by
  have h : x <<< (k + 1) = (x <<< k) <<< 1 := by
    simp only [Nat.shiftLeft_eq, Nat.pow_succ, Nat.mul_assoc]
  rw [h]
  generalize x <<< k = y
  simp only [Nat.shiftLeft_eq]
  omega

theorem testBit_63_shl_mod (x k : Nat) (hk : k ≤ 63) :
    ((x <<< k) % 2 ^ 64).testBit 63 = x.testBit (63 - k) := by
  rw [Nat.testBit_mod_two_pow, Nat.testBit_shiftLeft]
  simp [hk]

theorem sw_crc_zero_byte (s : Nat) :
    mcrc_calculate_sw_crc s 0 =
      ((s <<< 8) % 2 ^ 64) ^^^ mcrc_calculate_sw_crc 0 (s >>> 56) := by
  simp only [sw_crc_eq_advance, advance_eq_testBit, Nat.zero_testBit, Nat.testBit_shiftRight]
  have step : ∀ (k : Nat) (H : Nat), k ≤ 63 →
      advance_bit (((s <<< k) % 2 ^ 64) ^^^ H) false =
        ((s <<< (k + 1)) % 2 ^ 64) ^^^ advance_bit H (s.testBit (63 - k)) := by
    intro k H hk
    rw [advance_bit_step, shl_mod_succ, testBit_63_shl_mod s k hk]
  have first : advance_bit s false =
      ((s <<< 1) % 2 ^ 64) ^^^ advance_bit 0 (s.testBit 63) := by
    have := advance_bit_step s 0
    simpa using this
  rw [first, step 1 _ (by omega), step 2 _ (by omega), step 3 _ (by omega),
    step 4 _ (by omega), step 5 _ (by omega), step 6 _ (by omega), step 7 _ (by omega)]

theorem sw_crc_table_form (s b : Nat) :
    mcrc_calculate_sw_crc s b =
      ((s <<< 8) % 2 ^ 64) ^^^ mcrc_calculate_sw_crc 0 ((s >>> 56) ^^^ b) := by
  have h1 := sw_crc_xor s 0 0 b
  have h2 := sw_crc_xor 0 0 (s >>> 56) b
  simp only [Nat.xor_zero, Nat.zero_xor] at h1 h2
  rw [h1, h2, sw_crc_zero_byte, Nat.xor_assoc]


theorem channel_1_valid : ¬ (MCRC_CHANNEL_1 ≤ 0 ∨ MCRC_CHANNEL_1 ≥ MCRC_CHANNEL_INVALID) := by
  decide

theorem mode_full_cpu_valid :
    ¬ (MCRC_MODE_FULL_CPU < 0 ∨ MCRC_MODE_FULL_CPU ≥ MCRC_MODE_INVALID) := by
  decide

theorem mcrc_set_mode_ret (regs : Nat → Nat) :
    (mcrc_set_mode regs MCRC_CHANNEL_1 MCRC_MODE_FULL_CPU).1 = 0 := by
  unfold mcrc_set_mode
  rw [if_neg mode_full_cpu_valid, if_neg channel_1_valid]

theorem mcrc_reset_signature_ret (regs : Nat → Nat) :
    (mcrc_reset_signature regs MCRC_CHANNEL_1).1 = 0 := by
  unfold mcrc_reset_signature
  rw [if_neg channel_1_valid]

theorem mcrc_calculate_crc_ret (regs : Nat → Nat) (d8 : u8_ptr) (length crc64 : Nat) :
    (mcrc_calculate_crc regs MCRC_CHANNEL_1 d8 length crc64).1 = 0 := by
  unfold mcrc_calculate_crc
  rw [if_neg channel_1_valid]

theorem mcrc_finup_returns (burst_size : Nat) (st : mcrc_state) (d8 : u8_ptr)
    (length : Nat) (out : List Nat)
    (hb : burst_size < 2 ^ 32) (ha : d8.addr < 2 ^ 64) (hl : length < 2 ^ 32) :
    ∃ st' out', mcrc_finup burst_size st d8 length out = some (0, st', out') := by
  obtain ⟨st', hst'⟩ := mcrc_update_returns burst_size st d8 length hb ha hl
  exact ⟨st', put_unaligned_le64 st'.signature out, by simp [mcrc_finup, hst', mcrc_final]⟩

theorem mcrc_digest_returns_zero (burst_size : Nat) (st : mcrc_state) (d8 : u8_ptr)
    (length : Nat) (out : List Nat)
    (hb : burst_size < 2 ^ 32) (ha : d8.addr < 2 ^ 64) (hl : length < 2 ^ 32) :
    ∃ st' out', mcrc_digest burst_size st d8 length out = some (0, st', out') := by
  obtain ⟨st', out', h⟩ := mcrc_finup_returns burst_size (mcrc_init st).2 d8 length out hb ha hl
  exact ⟨st', out', by simp [mcrc_digest, (mcrc_init_eq st).1, h]⟩

theorem mcrc_calculate_crc_short (regs : Nat → Nat) (a : Nat) (S : List Nat)
    (length crc64 : Nat) (h8 : length < 8) (hl : length ≤ S.length) :
    mcrc_calculate_crc regs MCRC_CHANNEL_1 ⟨a, S⟩ length crc64 =
      (0, regs, (S.take length).foldl mcrc_calculate_sw_crc 0) := by
  unfold mcrc_calculate_crc
  rw [if_neg channel_1_valid]
  have hb := crc_block_loop.eq_2 (PSA_SIGREGL MCRC_CHANNEL_1) regs ⟨a, S⟩ length 0
    (by intro n hn; omega)
  simp only [hb, crc_tail_loop_eq _ _ _ _ hl]

theorem mcrc_update_short (st : mcrc_state) (a : Nat) (T : List Nat) (h8 : T.length < 8) :
    mcrc_update 0 st ⟨a, T⟩ T.length =
      some (0, { st with signature := T.foldl mcrc_calculate_sw_crc 0 }) := by
  simp [mcrc_update, burst_update, mcrc_calculate_crc_short st.regs a T T.length st.signature h8
    (le_refl _)]

theorem sw_crc_zero_zero : mcrc_calculate_sw_crc 0 0 = 0 := by decide

theorem sw_fold_zeros (k : Nat) :
    (List.replicate k 0).foldl mcrc_calculate_sw_crc 0 = 0 := by
  induction k with
  | zero => rfl
  | succ k ih => simp only [List.replicate_succ, List.foldl_cons, sw_crc_zero_zero, ih]

theorem mcrc_calculate_crc_zeros (regs : Nat → Nat) (a m length crc64 : Nat)
    (hl : length ≤ m) (h0 : regs (PSA_SIGREGL MCRC_CHANNEL_1) = 0) :
    mcrc_calculate_crc regs MCRC_CHANNEL_1 ⟨a, List.replicate m 0⟩ length crc64 =
      (0, regs, 0) := by
  rw [mcrc_calculate_crc_eq regs a (List.replicate m 0) length crc64 (by simpa using hl)
    (by
      intro b hb
      have := List.eq_of_mem_replicate (List.mem_of_mem_take hb)
      omega)]
  simp only [List.take_replicate, List.drop_replicate, h0, sw_fold_zeros, ite_self]
  rw [← h0, Function.update_eq_self]

theorem burst_update_zeros (st : mcrc_state) (a m length : Nat) (hl : length ≤ m)
    (h0 : st.regs (PSA_SIGREGL MCRC_CHANNEL_1) = 0) :
    burst_update st ⟨a, List.replicate m 0⟩ length = (0, { st with signature := 0 }) := by
  simp [burst_update, mcrc_calculate_crc_zeros st.regs a m length st.signature hl h0]

theorem mcrc_update_loop_zeros (burst_sz : Nat) (hbs : 0 < burst_sz) (fuel : Nat) :
    ∀ (st : mcrc_state) (rem_sz a m size : Nat),
    rem_sz ≤ fuel → rem_sz < 2 ^ 32 → size ≤ rem_sz → (0 < rem_sz → 0 < size) →
    rem_sz ≤ m → st.regs (PSA_SIGREGL MCRC_CHANNEL_1) = 0 →
    mcrc_update_loop burst_sz fuel st rem_sz ⟨a, List.replicate m 0⟩ size =
      some (0, if rem_sz = 0 then st else { st with signature := 0 }) := by
  induction fuel with
  | zero =>
    intro st rem_sz a m size h1 _ _ _ _ _
    have h : rem_sz = 0 := by omega
    unfold mcrc_update_loop
    simp [h]
  | succ fuel ih =>
    intro st rem_sz a m size h1 h2 h3 h4 h5 h6
    unfold mcrc_update_loop
    by_cases h : rem_sz = 0
    · simp [h]
    · have hs : 0 < size := h4 (by omega)
      have hr : (rem_sz + 2 ^ 64 - size) % 2 ^ 32 = rem_sz - size := by omega
      simp only [if_neg h, burst_update_zeros st a m size (by omega) h6, ne_eq,
        not_true_eq_false, if_false, hr, u8_ptr.add, List.drop_replicate]
      rw [ih { st with signature := 0 } (rem_sz - size) (a + size) (m - size)
        (min (rem_sz - size) burst_sz) (by omega) (by omega) (Nat.min_le_left _ _)
        (fun h0 => Nat.lt_min.mpr ⟨h0, hbs⟩) (by omega) h6]
      split <;> rfl

theorem mcrc_digest_zeros (burst_size : Nat) (st : mcrc_state) (addr n : Nat)
    (out : List Nat) (hn : 1 ≤ n)
    (hb : burst_size < 2 ^ 32) (ha : addr < 2 ^ 64) (hl : n < 2 ^ 32) :
    mcrc_digest burst_size st ⟨addr, List.replicate n 0⟩ n out =
      some (0, { (mcrc_init st).2 with signature := 0 }, put_unaligned_le64 0 out) := by
  obtain ⟨hi1, hi2, -, -⟩ := mcrc_init_eq st
  unfold mcrc_digest mcrc_finup mcrc_update
  simp only [hi1, ne_eq, not_true_eq_false, if_false]
  by_cases h0 : burst_size = 0
  · simp [h0, burst_update_zeros (mcrc_init st).2 addr n n (le_refl _) hi2, mcrc_final]
  · have hfirst : 0 < n → 0 < min n ((burst_size + addr + (2 ^ 64 - ALIGN_DOWN addr 8)) % 2 ^ 64) := by
      intro hpos
      rw [first_size_eq burst_size addr hb ha]
      exact Nat.lt_min.mpr ⟨hpos, by omega⟩
    rw [if_neg h0]
    simp only [mcrc_update_loop_zeros burst_size (by omega) n (mcrc_init st).2 n addr n _
      (le_refl _) hl (Nat.min_le_left _ _) hfirst (le_refl _) hi2]
    have hn0 : n ≠ 0 := by omega
    simp [hn0, mcrc_final]


theorem crc_block_loop_ev_fst (psa_reg : Nat) (length : Nat) :
    ∀ (regs : Nat → Nat) (d8 : u8_ptr) (sig : Nat),
    (crc_block_loop_ev psa_reg regs d8 length sig).1 =
      crc_block_loop psa_reg regs d8 length sig := by
  induction length using Nat.strong_induction_on with
  | _ length ih =>
    intro regs d8 sig
    by_cases h8 : 8 ≤ length
    · obtain ⟨n, rfl⟩ : ∃ n, length = n + 8 := ⟨length - 8, by omega⟩
      rw [crc_block_loop_ev, crc_block_loop]
      exact ih n (by omega) _ _ _
    · rw [crc_block_loop_ev.eq_2 psa_reg regs d8 length sig (by intro n hn; omega),
        crc_block_loop.eq_2 psa_reg regs d8 length sig (by intro n hn; omega)]

theorem crc_tail_loop_ev_fst (n : Nat) : ∀ (d8 : u8_ptr) (sig : Nat),
    (crc_tail_loop_ev d8 n sig).1 = crc_tail_loop d8 n sig := by
  induction n with
  | zero => intro d8 sig; rfl
  | succ n ih => intro d8 sig; rw [crc_tail_loop_ev, crc_tail_loop]; exact ih _ _

theorem mcrc_calculate_crc_ev_fst (regs : Nat → Nat) (channel : Nat) (d8 : u8_ptr)
    (length crc64 : Nat) :
    (mcrc_calculate_crc_ev regs channel d8 length crc64).1 =
      mcrc_calculate_crc regs channel d8 length crc64 := by
  unfold mcrc_calculate_crc_ev mcrc_calculate_crc
  by_cases h : channel ≤ 0 ∨ channel ≥ MCRC_CHANNEL_INVALID
  · rw [if_pos h, if_pos h]
  · rw [if_neg h, if_neg h]
    simp only [crc_block_loop_ev_fst, crc_tail_loop_ev_fst]

theorem burst_update_ev_fst (st : mcrc_state) (d8 : u8_ptr) (length : Nat) :
    (burst_update_ev st d8 length).1 = burst_update st d8 length := by
  unfold burst_update_ev burst_update
  simp only [mcrc_calculate_crc_ev_fst]

theorem mcrc_update_loop_ev_fst (burst_sz : Nat) (fuel : Nat) :
    ∀ (st : mcrc_state) (rem_sz : Nat) (cur : u8_ptr) (size : Nat),
    (mcrc_update_loop_ev burst_sz fuel st rem_sz cur size).map (fun r => r.1) =
      mcrc_update_loop burst_sz fuel st rem_sz cur size := by
  induction fuel with
  | zero =>
    intro st rem_sz cur size
    unfold mcrc_update_loop_ev mcrc_update_loop
    by_cases h : rem_sz = 0 <;> simp [h]
  | succ fuel ih =>
    intro st rem_sz cur size
    unfold mcrc_update_loop_ev mcrc_update_loop
    by_cases h : rem_sz = 0
    · simp [h]
    · simp only [if_neg h, burst_update_ev_fst, burst_update_ret, ne_eq, not_true_eq_false,
        if_false, Option.map_map, ← ih]
      rfl

theorem mcrc_update_ev_fst (burst_size : Nat) (st : mcrc_state) (d8 : u8_ptr) (length : Nat) :
    (mcrc_update_ev burst_size st d8 length).map (fun r => r.1) =
      mcrc_update burst_size st d8 length := by
  unfold mcrc_update_ev mcrc_update
  by_cases h : burst_size = 0
  · simp [h, burst_update_ev_fst]
  · simp only [if_neg h, mcrc_update_loop_ev_fst]

theorem u8_ptr_add_add (p : u8_ptr) (m n : Nat) : (p.add m).add n = p.add (m + n) := by
  simp only [u8_ptr.add, List.drop_drop, Nat.add_assoc]

theorem crc_block_loop_ptr (psa_reg : Nat) (length : Nat) :
    ∀ (regs : Nat → Nat) (d8 : u8_ptr) (sig : Nat),
    (crc_block_loop psa_reg regs d8 length sig).2.1 = d8.add (8 * (length / 8)) ∧
    (crc_block_loop psa_reg regs d8 length sig).2.2.1 = length % 8 := by
  induction length using Nat.strong_induction_on with
  | _ length ih =>
    intro regs d8 sig
    by_cases h8 : 8 ≤ length
    · obtain ⟨n, rfl⟩ : ∃ n, length = n + 8 := ⟨length - 8, by omega⟩
      rw [crc_block_loop]
      obtain ⟨h1, h2⟩ := ih n (by omega)
        (writeq_relaxed (cpu_to_be64p d8) psa_reg regs) (d8.add 8)
        (readq_relaxed (writeq_relaxed (cpu_to_be64p d8) psa_reg regs) psa_reg)
      refine ⟨?_, ?_⟩
      · rw [h1, u8_ptr_add_add]
        congr 1
        omega
      · rw [h2]; omega
    · rw [crc_block_loop.eq_2 psa_reg regs d8 length sig (by intro n hn; omega)]
      have h0 : length / 8 = 0 := by omega
      have h1 : length % 8 = length := by omega
      simp [h0, h1, u8_ptr.add]

theorem word_addrs_add_8 (d8 : u8_ptr) (n : Nat) :
    word_addrs d8 (n + 8) = d8.addr :: word_addrs (d8.add 8) n := by
  have hq : (n + 8) / 8 = n / 8 + 1 := by omega
  simp only [word_addrs, hq, List.range_succ_eq_map, List.map_cons, List.map_map, u8_ptr.add,
    Nat.mul_zero, Nat.add_zero]
  congr 1
  apply List.map_congr_left
  intro k _
  simp only [Function.comp, Nat.succ_eq_add_one]
  omega

theorem crc_block_loop_ev_log (psa_reg : Nat) (length : Nat) :
    ∀ (regs : Nat → Nat) (d8 : u8_ptr) (sig : Nat),
    (crc_block_loop_ev psa_reg regs d8 length sig).2 =
      (word_addrs d8 length).map mcrc_event.psa_store := by
  induction length using Nat.strong_induction_on with
  | _ length ih =>
    intro regs d8 sig
    by_cases h8 : 8 ≤ length
    · obtain ⟨n, rfl⟩ : ∃ n, length = n + 8 := ⟨length - 8, by omega⟩
      rw [crc_block_loop_ev, word_addrs_add_8]
      simp only [List.map_cons, ih n (by omega)]
    · rw [crc_block_loop_ev.eq_2 psa_reg regs d8 length sig (by intro n hn; omega)]
      have h0 : length / 8 = 0 := by omega
      simp [word_addrs, h0]

theorem crc_tail_loop_ev_log (n : Nat) : ∀ (d8 : u8_ptr) (sig : Nat),
    (crc_tail_loop_ev d8 n sig).2 =
      (List.range n).map fun i => mcrc_event.sw_step (d8.addr + i) := by
  induction n with
  | zero => intro d8 sig; rfl
  | succ n ih =>
    intro d8 sig
    rw [crc_tail_loop_ev]
    simp only [ih, List.range_succ_eq_map, List.map_cons, List.map_map, u8_ptr.add,
      Nat.add_zero]
    congr 1
    apply List.map_congr_left
    intro k _
    simp only [Function.comp, Nat.succ_eq_add_one]
    congr 1
    omega

theorem mcrc_calculate_crc_ev_log (regs : Nat → Nat) (d8 : u8_ptr) (length crc64 : Nat) :
    (mcrc_calculate_crc_ev regs MCRC_CHANNEL_1 d8 length crc64).2 =
      (word_addrs d8 length).map mcrc_event.psa_store ++
        (tail_addrs d8 length).map mcrc_event.sw_step := by
  unfold mcrc_calculate_crc_ev
  rw [if_neg channel_1_valid]
  simp only [crc_block_loop_ev_log, crc_tail_loop_ev_log, crc_block_loop_ev_fst]
  obtain ⟨h1, h2⟩ := crc_block_loop_ptr (PSA_SIGREGL MCRC_CHANNEL_1) length regs d8 0
  rw [h1, h2]
  simp [tail_addrs, u8_ptr.add, Function.comp]

theorem burst_calls_map_psa (l : List Nat) :
    burst_calls (l.map mcrc_event.psa_store) = [] := by
  induction l with
  | nil => rfl
  | cons a l ih => simp [burst_calls]

theorem burst_calls_map_sw (l : List Nat) :
    burst_calls (l.map mcrc_event.sw_step) = [] := by
  induction l with
  | nil => rfl
  | cons a l ih => simp [burst_calls]

theorem psa_stores_map_psa (l : List Nat) :
    psa_stores (l.map mcrc_event.psa_store) = l := by
  induction l with
  | nil => rfl
  | cons a l ih => simpa [psa_stores] using ih

theorem psa_stores_map_sw (l : List Nat) :
    psa_stores (l.map mcrc_event.sw_step) = [] := by
  induction l with
  | nil => rfl
  | cons a l ih => simp [psa_stores]

theorem sw_steps_map_psa (l : List Nat) :
    sw_steps (l.map mcrc_event.psa_store) = [] := by
  induction l with
  | nil => rfl
  | cons a l ih => simp [sw_steps]

theorem sw_steps_map_sw (l : List Nat) :
    sw_steps (l.map mcrc_event.sw_step) = l := by
  induction l with
  | nil => rfl
  | cons a l ih => simpa [sw_steps] using ih

theorem burst_update_ev_log (st : mcrc_state) (d8 : u8_ptr) (length : Nat) :
    burst_calls (burst_update_ev st d8 length).2 = [(d8, length)] ∧
    psa_stores (burst_update_ev st d8 length).2 = word_addrs d8 length ∧
    sw_steps (burst_update_ev st d8 length).2 = tail_addrs d8 length := by
  unfold burst_update_ev
  simp only [mcrc_calculate_crc_ev_log]
  refine ⟨?_, ?_, ?_⟩
  · simp [burst_calls, List.filterMap_append]
  · simp only [psa_stores, List.filterMap_cons, List.filterMap_append]
    have h1 := psa_stores_map_psa (word_addrs d8 length)
    have h2 := psa_stores_map_sw (tail_addrs d8 length)
    simp only [psa_stores] at h1 h2
    rw [h1, h2, List.append_nil]
  · simp only [sw_steps, List.filterMap_cons, List.filterMap_append]
    have h1 := sw_steps_map_psa (word_addrs d8 length)
    have h2 := sw_steps_map_sw (tail_addrs d8 length)
    simp only [sw_steps] at h1 h2
    rw [h1, h2, List.nil_append]

theorem burst_calls_append (l l' : List mcrc_event) :
    burst_calls (l ++ l') = burst_calls l ++ burst_calls l' := by
  simp only [burst_calls, List.filterMap_append]

theorem psa_stores_append (l l' : List mcrc_event) :
    psa_stores (l ++ l') = psa_stores l ++ psa_stores l' := by
  simp only [psa_stores, List.filterMap_append]

theorem sw_steps_append (l l' : List mcrc_event) :
    sw_steps (l ++ l') = sw_steps l ++ sw_steps l' := by
  simp only [sw_steps, List.filterMap_append]

theorem burst_update_ev_ret (st : mcrc_state) (d8 : u8_ptr) (length : Nat) :
    (burst_update_ev st d8 length).1.1 = 0 := by
  rw [burst_update_ev_fst, burst_update_ret]

theorem mcrc_update_loop_ev_calls (burst_sz : Nat) (hbs : 0 < burst_sz) (fuel : Nat) :
    ∀ (st : mcrc_state) (rem_sz : Nat) (cur : u8_ptr) (size : Nat),
    rem_sz ≤ fuel → rem_sz < 2 ^ 32 → size ≤ rem_sz → (0 < rem_sz → 0 < size) →
    ∃ st' log, mcrc_update_loop_ev burst_sz fuel st rem_sz cur size = some ((0, st'), log) ∧
      (burst_calls log).head? = (if rem_sz = 0 then none else some (cur, size)) ∧
      (∀ c ∈ (burst_calls log).tail, c.2 = min (cur.addr + rem_sz - c.1.addr) burst_sz) ∧
      (∀ c ∈ burst_calls log, 0 < c.2 ∧ c.1.addr + c.2 ≤ cur.addr + rem_sz) ∧
      List.Chain' follows (burst_calls log) ∧
      ((burst_calls log).map fun c => c.2).sum = rem_sz ∧
      psa_stores log = ((burst_calls log).map fun c => word_addrs c.1 c.2).flatten ∧
      sw_steps log = ((burst_calls log).map fun c => tail_addrs c.1 c.2).flatten := by
  induction fuel with
  | zero =>
    intro st rem_sz cur size h1 _ _ _
    have h : rem_sz = 0 := by omega
    refine ⟨st, [], ?_, ?_⟩
    · unfold mcrc_update_loop_ev
      simp [h]
    · simp [h, burst_calls, psa_stores, sw_steps]
  | succ fuel ih =>
    intro st rem_sz cur size h1 h2 h3 h4
    by_cases h : rem_sz = 0
    · refine ⟨st, [], ?_, ?_⟩
      · unfold mcrc_update_loop_ev
        simp [h]
      · simp [h, burst_calls, psa_stores, sw_steps]
    · have hs : 0 < size := h4 (by omega)
      have hr : (rem_sz + 2 ^ 64 - size) % 2 ^ 32 = rem_sz - size := by omega
      obtain ⟨st', log', hrun, hhead, htail, hall, hchain, hsum, hpsa, hsw⟩ :=
        ih (burst_update_ev st cur size).1.2 (rem_sz - size) (cur.add size)
          (min (rem_sz - size) burst_sz) (by omega) (by omega) (Nat.min_le_left _ _)
          (fun h0 => Nat.lt_min.mpr ⟨h0, hbs⟩)
      obtain ⟨hb1, hb2, hb3⟩ := burst_update_ev_log st cur size
      have hE : (cur.add size).addr + (rem_sz - size) = cur.addr + rem_sz := by
        simp only [u8_ptr.add]; omega
      refine ⟨st', (burst_update_ev st cur size).2 ++ log', ?_, ?_⟩
      · unfold mcrc_update_loop_ev
        simp only [if_neg h, burst_update_ev_ret, ne_eq, not_true_eq_false, if_false, hr, hrun,
          Option.map_some']
      · rw [burst_calls_append, psa_stores_append, sw_steps_append, hb1, hb2, hb3, hpsa, hsw]
        simp only [List.singleton_append, List.head?_cons, List.tail_cons, if_neg h,
          List.map_cons, List.sum_cons, List.flatten_cons, List.mem_cons, true_and]
        refine ⟨?_, ?_, ?_, ?_⟩
        · intro c hc
          cases hcs : burst_calls log' with
          | nil => rw [hcs] at hc; simp at hc
          | cons x t =>
            rw [hcs] at hc hhead htail
            by_cases hrem : rem_sz - size = 0
            · simp [hrem] at hhead
            · simp only [List.head?_cons, if_neg hrem, Option.some.injEq] at hhead
              rcases List.mem_cons.mp hc with hcx | hct
              · rw [hcx, hhead]
                simp only [u8_ptr.add]
                congr 1
                omega
              · have := htail c (by simpa using hct)
                rw [hE] at this
                exact this
        · intro c hc
          rcases hc with hc | hc
          · rw [hc]; exact ⟨hs, by simp only; omega⟩
          · have := hall c hc
            rw [hE] at this
            exact this
        · rw [List.chain'_cons']
          refine ⟨?_, hchain⟩
          intro y hy
          rw [hhead] at hy
          by_cases hrem : rem_sz - size = 0
          · simp [hrem] at hy
          · simp only [if_neg hrem, Option.mem_def, Option.some.injEq] at hy
            rw [← hy]
            rfl
        · exact ⟨by omega, trivial⟩


theorem mem_le_sum (l : List Nat) (x : Nat) (h : x ∈ l) : x ≤ l.sum := by
  induction l with
  | nil => simp at h
  | cons a l ih =>
    rcases List.mem_cons.mp h with rfl | h
    · simp
    · have := ih h
      simp only [List.sum_cons]
      omega

theorem flatten_word_addrs_short (cs : List (u8_ptr × Nat)) (h : ∀ c ∈ cs, c.2 < 8) :
    (cs.map fun c => word_addrs c.1 c.2).flatten = [] := by
  induction cs with
  | nil => rfl
  | cons c cs ih =>
    have hc : c.2 / 8 = 0 := by
      have := h c (List.mem_cons_self _ _)
      omega
    simp only [List.map_cons, List.flatten_cons, word_addrs, hc, List.range_zero, List.map_nil,
      List.nil_append]
    exact ih (fun c' hc' => h c' (List.mem_cons_of_mem _ hc'))

theorem mcrc_update_ev_calls (burst_size : Nat) (st : mcrc_state) (d8 : u8_ptr)
    (length : Nat) (hbs : 0 < burst_size)
    (hb : burst_size < 2 ^ 32) (ha : d8.addr < 2 ^ 64) (hl : length < 2 ^ 32) :
    ∃ st' log, mcrc_update_ev burst_size st d8 length = some ((0, st'), log) ∧
      (burst_calls log).head? =
        (if length = 0 then none else some (d8, min length (burst_size + d8.addr % 8))) ∧
      (∀ c ∈ (burst_calls log).tail, c.2 = min (d8.addr + length - c.1.addr) burst_size) ∧
      (∀ c ∈ burst_calls log, 0 < c.2 ∧ c.1.addr + c.2 ≤ d8.addr + length) ∧
      List.Chain' follows (burst_calls log) ∧
      ((burst_calls log).map fun c => c.2).sum = length ∧
      psa_stores log = ((burst_calls log).map fun c => word_addrs c.1 c.2).flatten ∧
      sw_steps log = ((burst_calls log).map fun c => tail_addrs c.1 c.2).flatten := by
  have h0 : burst_size ≠ 0 := by omega
  have hfirst := first_size_eq burst_size d8.addr hb ha
  have := mcrc_update_loop_ev_calls burst_size hbs length st length d8
    (min length (burst_size + d8.addr % 8)) (le_refl _) hl (Nat.min_le_left _ _)
    (fun hpos => Nat.lt_min.mpr ⟨hpos, by omega⟩)
  unfold mcrc_update_ev
  simp only [if_neg h0, hfirst]
  exact this

theorem mcrc_update_ev_psa (burst_size : Nat) (st : mcrc_state) (d8 : u8_ptr)
    (length : Nat) (hb : burst_size < 2 ^ 32) (ha : d8.addr < 2 ^ 64) (hl : length < 2 ^ 32) :
    ∃ st' log, mcrc_update_ev burst_size st d8 length = some ((0, st'), log) ∧
      psa_stores log = ((burst_calls log).map fun c => word_addrs c.1 c.2).flatten ∧
      sw_steps log = ((burst_calls log).map fun c => tail_addrs c.1 c.2).flatten ∧
      (length < 8 → psa_stores log = []) := by
  by_cases h0 : burst_size = 0
  · obtain ⟨hb1, hb2, hb3⟩ := burst_update_ev_log st d8 length
    refine ⟨(burst_update_ev st d8 length).1.2, (burst_update_ev st d8 length).2, ?_, ?_, ?_, ?_⟩
    · unfold mcrc_update_ev
      simp only [h0, if_true]
      have := burst_update_ev_ret st d8 length
      rw [← this]
    · rw [hb1, hb2]; simp
    · rw [hb1, hb3]; simp
    · intro h8
      have hq : length / 8 = 0 := by omega
      rw [hb2]; simp [word_addrs, hq]
  · obtain ⟨st', log, hrun, -, -, -, -, hsum, hpsa, hsw⟩ :=
      mcrc_update_ev_calls burst_size st d8 length (by omega) hb ha hl
    refine ⟨st', log, hrun, hpsa, hsw, ?_⟩
    intro h8
    rw [hpsa]
    apply flatten_word_addrs_short
    intro c hc
    have := mem_le_sum ((burst_calls log).map fun c => c.2) c.2
      (List.mem_map_of_mem (fun c => c.2) hc)
    omega

theorem word_addrs_mod (d8 : u8_ptr) (length : Nat) :
    ∀ a ∈ word_addrs d8 length, a % 8 = d8.addr % 8 := by
  intro a ha
  simp only [word_addrs, List.mem_map, List.mem_range] at ha
  obtain ⟨k, -, rfl⟩ := ha
  omega

theorem mcrc_calculate_crc_ev_stores (regs : Nat → Nat) (d8 : u8_ptr) (length crc64 : Nat) :
    psa_stores (mcrc_calculate_crc_ev regs MCRC_CHANNEL_1 d8 length crc64).2 =
      word_addrs d8 length ∧
    sw_steps (mcrc_calculate_crc_ev regs MCRC_CHANNEL_1 d8 length crc64).2 =
      tail_addrs d8 length := by
  rw [mcrc_calculate_crc_ev_log, psa_stores_append, sw_steps_append, psa_stores_map_psa,
    psa_stores_map_sw, sw_steps_map_psa, sw_steps_map_sw]
  simp

theorem crc_table_getD (i : Nat) (h : i < 256) :
    crc_table.getD i 0 = mcrc_calculate_sw_crc 0 i := by
  unfold crc_table
  rw [List.getD_eq_getElem _ _ (by simpa using h)]
  simp

/-! ## The claims -/

/-- C3 (path equivalence, reference value). With `burst_size = 0`, for every prior state,
every address and every byte sequence `S`, `mcrc_digest` returns 0, leaves in the
Signature the pure bit-serial fold of `S` from 0, writes its little-endian encoding to the
first 8 bytes of `out`, and leaves in the PSA register the bit-serial fold of the bytes
that went through the block path. -/
theorem mcrc_digest_eq_bit_serial (st : mcrc_state) (addr : Nat) (S out : List Nat)
    (hS : ∀ b ∈ S, b < 256) :
    (mcrc_digest 0 st ⟨addr, S⟩ S.length out).map
        (fun r => (r.1, r.2.1.signature, r.2.1.regs (PSA_SIGREGL MCRC_CHANNEL_1), r.2.2)) =
      some (0, S.foldl mcrc_calculate_sw_crc 0,
        (S.take (8 * (S.length / 8))).foldl mcrc_calculate_sw_crc 0,
        le64_encode (S.foldl mcrc_calculate_sw_crc 0) ++ out.drop 8) := by
  rw [mcrc_digest_burst0 st addr S out hS, put_unaligned_le64_eq]
  simp

/-- Witness of C3 at the 9 bytes `01 02 .. 09` with a used context: the first 8 bytes go
through the block path (one PSA store, register `0x1b362d6c775a41d8`), the ninth through
the software tail, and the digest is `86 d9 41 5a 77 6c 2d 36`. -/
theorem mcrc_digest_eq_bit_serial_witness :
    (∀ b ∈ [1, 2, 3, 4, 5, 6, 7, 8, 9], b < 256) ∧
    (mcrc_digest 0 used_state ⟨0x1000, [1, 2, 3, 4, 5, 6, 7, 8, 9]⟩
        [1, 2, 3, 4, 5, 6, 7, 8, 9].length zero_out).map
        (fun r => (r.1, r.2.1.signature, r.2.1.regs (PSA_SIGREGL MCRC_CHANNEL_1), r.2.2)) =
      some (0, 0x362d6c775a41d986, 0x1b362d6c775a41d8,
        [0x86, 0xd9, 0x41, 0x5a, 0x77, 0x6c, 0x2d, 0x36]) :=
  ⟨by decide,
   (mcrc_digest_eq_bit_serial used_state 0x1000 [1, 2, 3, 4, 5, 6, 7, 8, 9] zero_out
      (by decide)).trans (by set_option maxRecDepth 100000 in decide)⟩

/-- C7 (bit-serial step). For every signature `s` and byte `b`, `mcrc_calculate_sw_crc s b`
is the specified algorithm `advance s b` (8 bits, most significant first), and each of its
iterations maps `x` to `((x << 1) mod 2^64) XOR (0x1B if bit63(x) XOR inputbit else 0)`. -/
theorem mcrc_calculate_sw_crc_matches_algorithm (s b : Nat) :
    mcrc_calculate_sw_crc s b = advance s b ∧
    ∀ (x : Nat) (input_bit : Bool), advance_bit x input_bit =
      ((x <<< 1) % 2 ^ 64) ^^^ (if xor (x.testBit 63) input_bit then 0x1B else 0) := by
  refine ⟨sw_crc_eq_advance s b, ?_⟩
  intro x input_bit
  unfold advance_bit
  cases input_bit <;> cases x.testBit 63 <;> simp

/-- C8 (setkey). For every state, key buffer of bytes and `keylen`: `mcrc_setkey` returns
`-EINVAL` exactly when `keylen ≠ 4`; for `keylen = 4` it returns 0, stores
`key[0] + 2^8 key[1] + 2^16 key[2] + 2^24 key[3]` and changes nothing else; when it fails
the state, and so the stored key, is unchanged. -/
theorem mcrc_setkey_accepts_exactly_4_bytes (st : mcrc_state) (key : List Nat) (keylen : Nat)
    (hkey : ∀ b ∈ key, b < 256) :
    ((mcrc_setkey st key keylen).1 = -EINVAL ↔ keylen ≠ 4) ∧
    (keylen = 4 → (mcrc_setkey st key keylen).1 = 0 ∧
      (mcrc_setkey st key keylen).2.key =
        key.getD 0 0 + 2 ^ 8 * key.getD 1 0 + 2 ^ 16 * key.getD 2 0 + 2 ^ 24 * key.getD 3 0 ∧
      (mcrc_setkey st key keylen).2.regs = st.regs ∧
      (mcrc_setkey st key keylen).2.signature = st.signature) ∧
    (keylen ≠ 4 → (mcrc_setkey st key keylen).2 = st) := by
  unfold mcrc_setkey
  by_cases h : keylen = 4
  · simp [h, EINVAL, get_unaligned_le32_eq key hkey]
  · simp [h]

/-- Witness of C8: the key bytes `78 56 34 12` with length 4 are stored as `0x12345678`,
and the same buffer with length 3 is refused. -/
theorem mcrc_setkey_accepts_exactly_4_bytes_witness :
    (∀ b ∈ [0x78, 0x56, 0x34, 0x12], b < 256) ∧
    (mcrc_setkey zero_state [0x78, 0x56, 0x34, 0x12] 4).1 = 0 ∧
    (mcrc_setkey zero_state [0x78, 0x56, 0x34, 0x12] 4).2.key = 0x12345678 ∧
    (mcrc_setkey zero_state [0x78, 0x56, 0x34, 0x12] 3).1 = -EINVAL :=
  ⟨by decide,
   ((mcrc_setkey_accepts_exactly_4_bytes zero_state [0x78, 0x56, 0x34, 0x12] 4
      (by decide)).2.1 rfl).1,
   ((mcrc_setkey_accepts_exactly_4_bytes zero_state [0x78, 0x56, 0x34, 0x12] 4
      (by decide)).2.1 rfl).2.1,
   (mcrc_setkey_accepts_exactly_4_bytes zero_state [0x78, 0x56, 0x34, 0x12] 3
      (by decide)).1.mpr (by decide)⟩

/-- C9 (finalize). For every state with a 64-bit Signature and every digest buffer of at
least 8 bytes: `mcrc_final` returns 0; byte `i` of the first 8 bytes of `out` is
`(signature >> 8 i) & 0xFF`; the rest of the buffer and its length are unchanged; decoding
the output little-endian gives back the Signature; the state (Signature, PSA register,
key) is unchanged; and a second `mcrc_final` emits the same digest. -/
theorem mcrc_final_emits_le_signature (st : mcrc_state) (out : List Nat)
    (hs : st.signature < 2 ^ 64) (ho : 8 ≤ out.length) :
    (mcrc_final st out).1 = 0 ∧
    (mcrc_final st out).2.2.take 8 =
      (List.range 8).map (fun i => st.signature >>> (8 * i) &&& 0xFF) ∧
    (mcrc_final st out).2.2.drop 8 = out.drop 8 ∧
    (mcrc_final st out).2.2.length = out.length ∧
    le64_decode (mcrc_final st out).2.2 = st.signature ∧
    (mcrc_final st out).2.1 = st ∧
    mcrc_final (mcrc_final st out).2.1 (mcrc_final st out).2.2 = mcrc_final st out := by
  have hr : List.range 8 = [0, 1, 2, 3, 4, 5, 6, 7] := by decide
  refine ⟨rfl, ?_, ?_, ?_, le64_decode_put _ _ hs, rfl, ?_⟩
  · simp [mcrc_final, put_unaligned_le64, hr, and_0xff]
  · simp [mcrc_final, put_unaligned_le64]
  · simp [mcrc_final, put_unaligned_le64]; omega
  · simp [mcrc_final, put_unaligned_le64]

/-- Witness of C9 at Signature `0x1122334455667788`. -/
theorem mcrc_final_emits_le_signature_witness :
    (0x1122334455667788 < 2 ^ 64 ∧ 8 ≤ zero_out.length) ∧
    (mcrc_final ⟨fun _ => 0, 0, 0x1122334455667788⟩ zero_out).2.2.take 8 =
      (List.range 8).map (fun i => 0x1122334455667788 >>> (8 * i) &&& 0xFF) ∧
    le64_decode (mcrc_final ⟨fun _ => 0, 0, 0x1122334455667788⟩ zero_out).2.2 =
      0x1122334455667788 :=
  ⟨by decide,
   (mcrc_final_emits_le_signature ⟨fun _ => 0, 0, 0x1122334455667788⟩ zero_out
      (by decide) (by decide)).2.1,
   (mcrc_final_emits_le_signature ⟨fun _ => 0, 0, 0x1122334455667788⟩ zero_out
      (by decide) (by decide)).2.2.2.2.1⟩

/-- C10 (key independence). For every burst size, prior state, input range, output
buffer and keys `k1`, `k2`: `mcrc_digest` returns with either key, with the same return
value, the same digest bytes, the same Signature and registers, and the stored key as it
was; `mcrc_init`, `mcrc_update` and `mcrc_final` leave the stored key unchanged; and
after a successful `mcrc_setkey` on any 4 bytes the digest is the one obtained with key 0. -/
theorem mcrc_digest_key_independent (burst_size : Nat) (st : mcrc_state) (d8 : u8_ptr)
    (length : Nat) (out : List Nat) (k1 k2 : Nat)
    (hb : burst_size < 2 ^ 32) (ha : d8.addr < 2 ^ 64) (hl : length < 2 ^ 32) :
    (∃ r, mcrc_digest burst_size (set_key st k1) d8 length out = some r ∧
      mcrc_digest burst_size (set_key st k2) d8 length out =
        some (r.1, set_key r.2.1 k2, r.2.2) ∧
      r.2.1.key = k1) ∧
    (mcrc_init st).2.key = st.key ∧
    (∃ r, mcrc_update burst_size st d8 length = some r ∧ r.2.key = st.key) ∧
    (mcrc_final st out).2.1.key = st.key ∧
    (∀ key : List Nat,
      (mcrc_setkey st key 4).1 = 0 ∧
      out_of (mcrc_digest burst_size (mcrc_setkey st key 4).2 d8 length out) =
        out_of (mcrc_digest burst_size (set_key st 0) d8 length out)) := by
  obtain ⟨r0, h0⟩ := mcrc_digest_returns burst_size st d8 length out hb ha hl
  obtain ⟨st', hst'⟩ := mcrc_update_returns burst_size st d8 length hb ha hl
  refine ⟨⟨(r0.1, set_key r0.2.1 k1, r0.2.2), ?_, ?_, rfl⟩, (mcrc_init_eq st).2.2.1,
    ⟨(0, st'), hst', mcrc_update_key burst_size st d8 length _ hst'⟩, rfl, ?_⟩
  · rw [mcrc_digest_set_key, h0]; rfl
  · rw [mcrc_digest_set_key, h0]; rfl
  · intro key
    have hk : (mcrc_setkey st key 4).2 = set_key st (get_unaligned_le32 key) := by
      simp [mcrc_setkey, set_key]
    refine ⟨by simp [mcrc_setkey], ?_⟩
    rw [hk, mcrc_digest_set_key, mcrc_digest_set_key, out_of_map_set_key, out_of_map_set_key]

/-- Witness of C10: the digest of `01 00` with burst size 4 under key 0 and under key
`0x12345678`. -/
theorem mcrc_digest_key_independent_witness :
    ((4 : Nat) < 2 ^ 32 ∧ (0x1000 : Nat) < 2 ^ 64 ∧ (2 : Nat) < 2 ^ 32) ∧
    out_of (mcrc_digest 4 (set_key zero_state 0) ⟨0x1000, [1, 0]⟩ 2 zero_out) =
      out_of (mcrc_digest 4 (set_key zero_state 0x12345678) ⟨0x1000, [1, 0]⟩ 2 zero_out) := by
  refine ⟨by decide, ?_⟩
  obtain ⟨⟨r, h1, h2, -⟩, -⟩ := mcrc_digest_key_independent 4 zero_state ⟨0x1000, [1, 0]⟩ 2
    zero_out 0 0x12345678 (by decide) (by decide) (by decide)
  rw [h1, h2]
  rfl

/-- C1 (split invariance) at a failing input. With `burst_size = 0` and a fresh context,
`mcrc_init; mcrc_update(01); mcrc_update(00); mcrc_final` writes the all-zero digest,
while `mcrc_digest(01 00)` writes `00 1b 00 00 00 00 00 00`; and
`mcrc_init; mcrc_update(8 bytes); mcrc_update(01); mcrc_final` writes the digest of the
single byte `01`. -/
theorem mcrc_stream_split_differs_from_digest :
    out_of (mcrc_stream 0 zero_state [(⟨0x1000, [1]⟩, 1), (⟨0x1001, [0]⟩, 1)] zero_out) =
      some [0, 0, 0, 0, 0, 0, 0, 0] ∧
    out_of (mcrc_digest 0 zero_state ⟨0x1000, [1, 0]⟩ 2 zero_out) =
      some [0, 0x1b, 0, 0, 0, 0, 0, 0] ∧
    out_of (mcrc_stream 0 zero_state
        [(⟨0x1000, [1, 2, 3, 4, 5, 6, 7, 8]⟩, 8), (⟨0x1008, [1]⟩, 1)] zero_out) =
      out_of (mcrc_digest 0 zero_state ⟨0x1008, [1]⟩ 1 zero_out) ∧
    out_of (mcrc_digest 0 zero_state ⟨0x1000, [1, 2, 3, 4, 5, 6, 7, 8, 1]⟩ 9 zero_out) ≠
      out_of (mcrc_digest 0 zero_state ⟨0x1008, [1]⟩ 1 zero_out) := by
  set_option maxRecDepth 100000 in decide

/-- C2 (burst-size irrelevance) at a failing input. For the 8 bytes `01 00 00 00 00 00 00
00` at an 8-byte-aligned address, `mcrc_digest` with `burst_size = 0` writes
`00 00 00 00 00 00 00 1b` and with `burst_size = 4` writes the all-zero digest. -/
theorem mcrc_digest_depends_on_burst_size :
    out_of (mcrc_digest 0 zero_state ⟨0x1000, [1, 0, 0, 0, 0, 0, 0, 0]⟩ 8 zero_out) =
      some [0, 0, 0, 0, 0, 0, 0, 0x1b] ∧
    out_of (mcrc_digest 4 zero_state ⟨0x1000, [1, 0, 0, 0, 0, 0, 0, 0]⟩ 8 zero_out) =
      some [0, 0, 0, 0, 0, 0, 0, 0] := by
  set_option maxRecDepth 100000 in decide

/-- C4 (empty-input vector) at a failing input. With `burst_size = 8` and a context whose
Signature is 1, `mcrc_digest` of the empty input returns 0 and writes
`01 00 00 00 00 00 00 00`; with `burst_size = 0` it writes the all-zero digest. -/
theorem mcrc_digest_empty_keeps_stale_signature :
    (mcrc_digest 8 used_state ⟨0x1000, []⟩ 0 zero_out).map (fun r => (r.1, r.2.2)) =
      some (0, [1, 0, 0, 0, 0, 0, 0, 0]) ∧
    (mcrc_digest 0 used_state ⟨0x1000, []⟩ 0 zero_out).map (fun r => (r.1, r.2.2)) =
      some (0, [0, 0, 0, 0, 0, 0, 0, 0]) := by
  decide

/-- C5 (init resets the Signature) at a failing input. On a context whose Signature is 1,
`mcrc_init` returns 0, resets the PSA register, leaves the Signature at 1, and a
following `mcrc_final` writes `01 00 00 00 00 00 00 00`. -/
theorem mcrc_init_keeps_context_signature :
    (mcrc_init used_state).1 = 0 ∧
    (mcrc_init used_state).2.regs (PSA_SIGREGL MCRC_CHANNEL_1) = 0 ∧
    (mcrc_init used_state).2.signature = 1 ∧
    (mcrc_final (mcrc_init used_state).2 zero_out).2.2 = [1, 0, 0, 0, 0, 0, 0, 0] := by
  decide

/-- C6 (idempotent reuse) at a failing input. With `burst_size = 8`, `mcrc_digest` of the
empty input started from a context with Signature 0 and from one with Signature 1
writes different digests. -/
theorem mcrc_digest_empty_depends_on_prior_state :
    out_of (mcrc_digest 8 zero_state ⟨0x1000, []⟩ 0 zero_out) =
      some [0, 0, 0, 0, 0, 0, 0, 0] ∧
    out_of (mcrc_digest 8 used_state ⟨0x1000, []⟩ 0 zero_out) =
      some [1, 0, 0, 0, 0, 0, 0, 0] := by
  decide

/-- C11 (the engine operations never fail). For every burst size, state, input range and
output buffer (32-bit burst size and length, 64-bit address), `mcrc_init`, `mcrc_update`,
`mcrc_final`, `mcrc_finup` and `mcrc_digest` return, and return 0; with channel
`MCRC_CHANNEL_1` and mode `MCRC_MODE_FULL_CPU`, the only values they pass, `mcrc_set_mode`,
`mcrc_reset_signature` and `mcrc_calculate_crc` return 0 and not `-EINVAL`. -/
theorem mcrc_operations_return_zero (burst_size : Nat) (st : mcrc_state) (d8 : u8_ptr)
    (length : Nat) (out : List Nat) (regs : Nat → Nat) (crc64 : Nat)
    (hb : burst_size < 2 ^ 32) (ha : d8.addr < 2 ^ 64) (hl : length < 2 ^ 32) :
    (mcrc_init st).1 = 0 ∧
    (∃ st', mcrc_update burst_size st d8 length = some (0, st')) ∧
    (mcrc_final st out).1 = 0 ∧
    (∃ st' out', mcrc_finup burst_size st d8 length out = some (0, st', out')) ∧
    (∃ st' out', mcrc_digest burst_size st d8 length out = some (0, st', out')) ∧
    (mcrc_set_mode regs MCRC_CHANNEL_1 MCRC_MODE_FULL_CPU).1 = 0 ∧
    (mcrc_reset_signature regs MCRC_CHANNEL_1).1 = 0 ∧
    (mcrc_calculate_crc regs MCRC_CHANNEL_1 d8 length crc64).1 = 0 :=
  ⟨(mcrc_init_eq st).1, mcrc_update_returns burst_size st d8 length hb ha hl, rfl,
    mcrc_finup_returns burst_size st d8 length out hb ha hl,
    mcrc_digest_returns_zero burst_size st d8 length out hb ha hl,
    mcrc_set_mode_ret regs, mcrc_reset_signature_ret regs,
    mcrc_calculate_crc_ret regs d8 length crc64⟩

/-- Witness of C11: burst size 4, a used context, the 3 bytes `01 02 03` at an odd
address. -/
theorem mcrc_operations_return_zero_witness :
    ((4 : Nat) < 2 ^ 32 ∧ (0x1001 : Nat) < 2 ^ 64 ∧ (3 : Nat) < 2 ^ 32) ∧
    (mcrc_init used_state).1 = 0 ∧
    (∃ st', mcrc_update 4 used_state ⟨0x1001, [1, 2, 3]⟩ 3 = some (0, st')) ∧
    (∃ st' out', mcrc_digest 4 used_state ⟨0x1001, [1, 2, 3]⟩ 3 zero_out =
      some (0, st', out')) :=
  ⟨by decide,
   (mcrc_operations_return_zero 4 used_state ⟨0x1001, [1, 2, 3]⟩ 3 zero_out (fun _ => 0) 0
      (by decide) (by decide) (by decide)).1,
   (mcrc_operations_return_zero 4 used_state ⟨0x1001, [1, 2, 3]⟩ 3 zero_out (fun _ => 0) 0
      (by decide) (by decide) (by decide)).2.1,
   (mcrc_operations_return_zero 4 used_state ⟨0x1001, [1, 2, 3]⟩ 3 zero_out (fun _ => 0) 0
      (by decide) (by decide) (by decide)).2.2.2.2.1⟩

/-- C12 (all-zero input vector). For every `n ≥ 1`, every burst size, start address and
prior state, `mcrc_digest` of `n` bytes `0x00` returns 0, leaves Signature 0 and writes
the all-zero 8-byte digest; and `mcrc_calculate_sw_crc(0, 0x00) = 0`. -/
theorem mcrc_digest_all_zero_input (burst_size : Nat) (st : mcrc_state) (addr n : Nat)
    (out : List Nat) (hn : 1 ≤ n)
    (hb : burst_size < 2 ^ 32) (ha : addr < 2 ^ 64) (hl : n < 2 ^ 32) :
    (mcrc_digest burst_size st ⟨addr, List.replicate n 0⟩ n out).map
        (fun r => (r.1, r.2.1.signature, r.2.2)) =
      some (0, 0, [0, 0, 0, 0, 0, 0, 0, 0] ++ out.drop 8) ∧
    mcrc_calculate_sw_crc 0 0 = 0 := by
  refine ⟨?_, sw_crc_zero_zero⟩
  rw [mcrc_digest_zeros burst_size st addr n out hn hb ha hl]
  rfl

/-- Witness of C12: the single byte `00` at an odd address, burst size 4, used context. -/
theorem mcrc_digest_all_zero_input_witness :
    ((1 : Nat) ≤ 1 ∧ (4 : Nat) < 2 ^ 32 ∧ (0x1001 : Nat) < 2 ^ 64 ∧ (1 : Nat) < 2 ^ 32) ∧
    (mcrc_digest 4 used_state ⟨0x1001, List.replicate 1 0⟩ 1 zero_out).map
        (fun r => (r.1, r.2.1.signature, r.2.2)) =
      some (0, 0, [0, 0, 0, 0, 0, 0, 0, 0] ++ zero_out.drop 8) :=
  ⟨by decide,
   (mcrc_digest_all_zero_input 4 used_state 0x1001 1 zero_out (by decide) (by decide)
      (by decide) (by decide)).1⟩

/-- C13 (burst cap) at a counterexample. With `burst_size = 4` and 16 bytes at address
`0x1004` (offset 4), `mcrc_update` calls `burst_update` with sizes 8, 4, 4: the first
sub-range is larger than `burst_size` and hands 8 bytes to the block accumulator. -/
theorem burst_cap_exceeded_by_first_burst :
    (mcrc_update_ev 4 zero_state ⟨0x1004, List.replicate 16 0⟩ 16).map
        (fun r => (burst_calls r.2).map fun c => c.2) = some [8, 4, 4] ∧
    ¬ (∀ size ∈ [8, 4, 4], 8 * (size / 8) ≤ 4) ∧ ¬ (∀ size ∈ [8, 4, 4], size ≤ 4) := by
  set_option maxRecDepth 100000 in decide

/-- C13 as amended. For every non-zero burst size, length and start address, with
`off = address mod 8`: `mcrc_update` returns 0; its first sub-range starts at `d8` and
has size exactly `min(length, burst_size + off)`; every later sub-range has size at most
`burst_size`, so hands at most `burst_size` bytes to the block accumulator; every
sub-range has size at most `burst_size` exactly when `off = 0` or
`length ≤ burst_size`; and every sub-range hands at most `burst_size` bytes to the block
accumulator (`8 * floor(size / 8) ≤ burst_size`) exactly when the first one does, which
is the case when `burst_size` is a multiple of 8, when `off = 0`, when
`burst_size mod 8 + off < 8` and when `length ≤ burst_size`. -/
theorem burst_sizes_bounded (burst_size : Nat) (st : mcrc_state) (d8 : u8_ptr)
    (length : Nat) (hbs : 0 < burst_size)
    (hb : burst_size < 2 ^ 32) (ha : d8.addr < 2 ^ 64) (hl : length < 2 ^ 32) :
    ∃ st' log, mcrc_update_ev burst_size st d8 length = some ((0, st'), log) ∧
      mcrc_update burst_size st d8 length = some (0, st') ∧
      (burst_calls log).head? =
        (if length = 0 then none else some (d8, min length (burst_size + d8.addr % 8))) ∧
      (∀ c ∈ (burst_calls log).head?, c.2 ≤ burst_size + d8.addr % 8) ∧
      (∀ c ∈ (burst_calls log).tail, c.2 ≤ burst_size ∧ 8 * (c.2 / 8) ≤ burst_size) ∧
      ((∀ c ∈ burst_calls log, c.2 ≤ burst_size) ↔
        (d8.addr % 8 = 0 ∨ length ≤ burst_size)) ∧
      ((∀ c ∈ burst_calls log, 8 * (c.2 / 8) ≤ burst_size) ↔
        8 * (min length (burst_size + d8.addr % 8) / 8) ≤ burst_size) ∧
      ((burst_size % 8 = 0 ∨ d8.addr % 8 = 0 ∨ burst_size % 8 + d8.addr % 8 < 8 ∨
          length ≤ burst_size) →
        ∀ c ∈ burst_calls log, 8 * (c.2 / 8) ≤ burst_size) ∧
      (d8.addr % 8 = 0 →
        ∀ c ∈ burst_calls log, c.2 ≤ burst_size ∧ 8 * (c.2 / 8) ≤ burst_size) := by
  obtain ⟨st', log, hrun, hhead, htail, -, -, -, -, -⟩ :=
    mcrc_update_ev_calls burst_size st d8 length hbs hb ha hl
  have ht : ∀ c ∈ (burst_calls log).tail, c.2 ≤ burst_size ∧ 8 * (c.2 / 8) ≤ burst_size := by
    intro c hc
    have h1 : c.2 ≤ burst_size := by
      rw [htail c hc]
      exact Nat.min_le_right _ _
    exact ⟨h1, by omega⟩
  refine ⟨st', log, hrun, by rw [← mcrc_update_ev_fst, hrun]; rfl, hhead, ?_⟩
  cases hcs : burst_calls log with
  | nil =>
    rw [hcs] at hhead
    have h0 : length = 0 := by
      by_cases h0 : length = 0
      · exact h0
      · simp [h0] at hhead
    subst h0
    simp
  | cons x t =>
    rw [hcs] at hhead ht
    have h0 : length ≠ 0 := by
      intro h0
      simp [h0] at hhead
    simp only [List.head?_cons, if_neg h0, Option.some.injEq] at hhead
    have hx : x.2 = min length (burst_size + d8.addr % 8) := by rw [hhead]
    simp only [List.tail_cons] at ht
    simp only [List.head?_cons, Option.mem_def, Option.some.injEq, List.tail_cons,
      List.forall_mem_cons, forall_eq', hx]
    refine ⟨Nat.min_le_right _ _, ht, ?_, ?_, ?_, ?_⟩
    · constructor
      · intro h; have := h.1; omega
      · intro h; exact ⟨by omega, fun c hc => (ht c hc).1⟩
    · constructor
      · intro h; exact h.1
      · intro h; exact ⟨h, fun c hc => (ht c hc).2⟩
    · intro h
      exact ⟨by omega, fun c hc => (ht c hc).2⟩
    · intro h
      exact ⟨⟨by omega, by omega⟩, fun c hc => ht c hc⟩

/-- Witness of C13 as amended: burst size 8, 32 bytes at address `0x1007` (offset 7).
The first sub-range has size 15, larger than the burst size, and every sub-range hands
at most 8 bytes to the block accumulator. -/
theorem burst_sizes_bounded_witness :
    ((0 : Nat) < 8 ∧ (8 : Nat) < 2 ^ 32 ∧ (0x1007 : Nat) < 2 ^ 64 ∧ (32 : Nat) < 2 ^ 32) ∧
    ∃ st' log, mcrc_update_ev 8 zero_state ⟨0x1007, List.replicate 32 0⟩ 32 =
        some ((0, st'), log) ∧
      mcrc_update 8 zero_state ⟨0x1007, List.replicate 32 0⟩ 32 = some (0, st') ∧
      (burst_calls log).head? = some (⟨0x1007, List.replicate 32 0⟩, 15) ∧
      (∀ c ∈ (burst_calls log).tail, c.2 ≤ 8 ∧ 8 * (c.2 / 8) ≤ 8) ∧
      (∀ c ∈ burst_calls log, 8 * (c.2 / 8) ≤ 8) ∧
      ¬ (∀ c ∈ burst_calls log, c.2 ≤ 8) := by
  refine ⟨by decide, ?_⟩
  obtain ⟨st', log, hrun, hupd, hhead, -, htail, hsize, -, hblock, -⟩ :=
    burst_sizes_bounded 8 zero_state ⟨0x1007, List.replicate 32 0⟩ 32 (by decide) (by decide)
      (by decide) (by decide)
  exact ⟨st', log, hrun, hupd, hhead.trans rfl, htail, hblock (Or.inl (by decide)),
    fun h => absurd (hsize.mp h) (by decide)⟩

/-- C14 (unaligned prefix) at a counterexample. With `burst_size = 0` and 8 bytes at
address `0x1001`, `mcrc_update` stores to the PSA register the word that starts at
`0x1001`, which is not a multiple of 8, and no byte goes through
`mcrc_calculate_sw_crc`. -/
theorem psa_store_at_unaligned_address :
    (mcrc_update_ev 0 zero_state ⟨0x1001, [1, 2, 3, 4, 5, 6, 7, 8]⟩ 8).map
        (fun r => (psa_stores r.2, sw_steps r.2)) = some ([0x1001], []) ∧
    ¬ (∀ a ∈ [0x1001], a % 8 = 0) := by
  set_option maxRecDepth 100000 in decide

/-- C14 as amended. `mcrc_calculate_crc` has no software prefix: for every start address
and length a call stores to the PSA register the whole 8-byte words of its range from its
start address on (`d8`, `d8 + 8`, ...), each at an address congruent to `d8` modulo 8, so
at a multiple of 8 when `d8` is one, and only the trailing `length mod 8` bytes go
through `mcrc_calculate_sw_crc`; for every burst size `mcrc_update` returns 0 and the
words it stores are those of its sub-ranges; and an input shorter than 8 bytes causes no
PSA register store at all. -/
theorem psa_stores_start_at_range_start (burst_size : Nat) (st : mcrc_state)
    (regs : Nat → Nat) (d8 : u8_ptr) (length crc64 : Nat)
    (hb : burst_size < 2 ^ 32) (ha : d8.addr < 2 ^ 64) (hl : length < 2 ^ 32) :
    (mcrc_calculate_crc_ev regs MCRC_CHANNEL_1 d8 length crc64).1 =
      mcrc_calculate_crc regs MCRC_CHANNEL_1 d8 length crc64 ∧
    psa_stores (mcrc_calculate_crc_ev regs MCRC_CHANNEL_1 d8 length crc64).2 =
      word_addrs d8 length ∧
    sw_steps (mcrc_calculate_crc_ev regs MCRC_CHANNEL_1 d8 length crc64).2 =
      tail_addrs d8 length ∧
    (∀ a ∈ psa_stores (mcrc_calculate_crc_ev regs MCRC_CHANNEL_1 d8 length crc64).2,
      a % 8 = d8.addr % 8) ∧
    (d8.addr % 8 = 0 →
      ∀ a ∈ psa_stores (mcrc_calculate_crc_ev regs MCRC_CHANNEL_1 d8 length crc64).2,
        a % 8 = 0) ∧
    ∃ st' log, mcrc_update_ev burst_size st d8 length = some ((0, st'), log) ∧
      mcrc_update burst_size st d8 length = some (0, st') ∧
      psa_stores log = ((burst_calls log).map fun c => word_addrs c.1 c.2).flatten ∧
      sw_steps log = ((burst_calls log).map fun c => tail_addrs c.1 c.2).flatten ∧
      (length < 8 → psa_stores log = []) := by
  obtain ⟨h1, h2⟩ := mcrc_calculate_crc_ev_stores regs d8 length crc64
  obtain ⟨st', log, hrun, h3, h4, h5⟩ := mcrc_update_ev_psa burst_size st d8 length hb ha hl
  refine ⟨mcrc_calculate_crc_ev_fst regs MCRC_CHANNEL_1 d8 length crc64, h1, h2, ?_, ?_,
    st', log, hrun, by rw [← mcrc_update_ev_fst, hrun]; rfl, h3, h4, h5⟩
  · rw [h1]; exact word_addrs_mod d8 length
  · intro h0 a hmem
    rw [h1] at hmem
    rw [word_addrs_mod d8 length a hmem, h0]

/-- Witness of C14 as amended: 20 bytes at address `0x1001`. One `mcrc_calculate_crc` call
on them stores the words at `0x1001` and `0x1009`, neither at a multiple of 8, and puts
the last 4 bytes through `mcrc_calculate_sw_crc`; `mcrc_update` with burst size 8 stores
the whole words of its sub-ranges. -/
theorem psa_stores_start_at_range_start_witness :
    ((8 : Nat) < 2 ^ 32 ∧ (0x1001 : Nat) < 2 ^ 64 ∧ (20 : Nat) < 2 ^ 32) ∧
    psa_stores (mcrc_calculate_crc_ev (fun _ => 0) MCRC_CHANNEL_1
      ⟨0x1001, List.replicate 20 0xab⟩ 20 0).2 = [0x1001, 0x1009] ∧
    sw_steps (mcrc_calculate_crc_ev (fun _ => 0) MCRC_CHANNEL_1
      ⟨0x1001, List.replicate 20 0xab⟩ 20 0).2 = [0x1011, 0x1012, 0x1013, 0x1014] ∧
    (∀ a ∈ psa_stores (mcrc_calculate_crc_ev (fun _ => 0) MCRC_CHANNEL_1
      ⟨0x1001, List.replicate 20 0xab⟩ 20 0).2, a % 8 = 1) ∧
    ∃ st' log, mcrc_update_ev 8 zero_state ⟨0x1001, List.replicate 20 0xab⟩ 20 =
        some ((0, st'), log) ∧
      psa_stores log = ((burst_calls log).map fun c => word_addrs c.1 c.2).flatten := by
  obtain ⟨-, h1, h2, h3, -, st', log, hrun, -, h4, -, -⟩ :=
    psa_stores_start_at_range_start 8 zero_state (fun _ => 0)
      ⟨0x1001, List.replicate 20 0xab⟩ 20 0 (by decide) (by decide) (by decide)
  exact ⟨by decide, h1.trans (by decide), h2.trans (by decide), h3, st', log, hrun, h4⟩

/-- C15 (burst segmentation is an exact, terminating partition). For every burst size
`> 0`, every 32-bit length and every start address, the loop of `mcrc_update` terminates
and returns 0; the first `burst_update` call is on `d8` with size
`min(length, burst_size + off)`, `off = address mod 8`; every later call has size
`min(remaining, burst_size)`, the remaining bytes being those from its start to the end
of the input; every sub-range is non-empty and ends within the input; each starts where
the one before ends; the sizes sum to `length`; and for `length = 0` there is no call. -/
theorem mcrc_update_bursts_partition (burst_size : Nat) (st : mcrc_state) (d8 : u8_ptr)
    (length : Nat) (hbs : 0 < burst_size)
    (hb : burst_size < 2 ^ 32) (ha : d8.addr < 2 ^ 64) (hl : length < 2 ^ 32) :
    ∃ st' log, mcrc_update_ev burst_size st d8 length = some ((0, st'), log) ∧
      mcrc_update burst_size st d8 length = some (0, st') ∧
      (burst_calls log).head? =
        (if length = 0 then none else some (d8, min length (burst_size + d8.addr % 8))) ∧
      (∀ c ∈ (burst_calls log).tail, c.2 = min (d8.addr + length - c.1.addr) burst_size) ∧
      (∀ c ∈ burst_calls log, 0 < c.2 ∧ c.1.addr + c.2 ≤ d8.addr + length) ∧
      List.Chain' follows (burst_calls log) ∧
      ((burst_calls log).map fun c => c.2).sum = length ∧
      (length = 0 → burst_calls log = []) := by
  obtain ⟨st', log, hrun, hhead, htail, hall, hchain, hsum, -, -⟩ :=
    mcrc_update_ev_calls burst_size st d8 length hbs hb ha hl
  refine ⟨st', log, hrun, ?_, hhead, htail, hall, hchain, hsum, ?_⟩
  · rw [← mcrc_update_ev_fst, hrun]
    rfl
  · intro h0
    rw [h0] at hhead
    simpa using hhead

/-- Witness of C15: burst size 8, 20 bytes at address `0x1001`. -/
theorem mcrc_update_bursts_partition_witness :
    ((0 : Nat) < 8 ∧ (8 : Nat) < 2 ^ 32 ∧ (0x1001 : Nat) < 2 ^ 64 ∧ (20 : Nat) < 2 ^ 32) ∧
    ∃ st' log, mcrc_update_ev 8 zero_state ⟨0x1001, List.replicate 20 0⟩ 20 =
        some ((0, st'), log) ∧
      (burst_calls log).head? = some (⟨0x1001, List.replicate 20 0⟩, 9) ∧
      ((burst_calls log).map fun c => c.2).sum = 20 := by
  refine ⟨by decide, ?_⟩
  obtain ⟨st', log, hrun, -, hhead, -, -, -, hsum, -⟩ :=
    mcrc_update_bursts_partition 8 zero_state ⟨0x1001, List.replicate 20 0⟩ 20 (by decide)
      (by decide) (by decide) (by decide)
  exact ⟨st', log, hrun, by simpa using hhead, hsum⟩

/-- C16 (a short update discards earlier accumulation). With `burst_size = 0`, for every
prior state (Signature `v`, PSA register `r`, key) and every byte sequence `T` shorter
than 8 bytes, `mcrc_update(T)` returns 0, leaves the registers and the key as they were,
and sets the Signature to the bit-serial fold of `T` from 0, the same from every prior
state; on an empty buffer it sets the Signature to 0. -/
theorem mcrc_update_short_discards_accumulation (st st2 : mcrc_state) (addr : Nat)
    (T : List Nat) (h8 : T.length < 8) :
    mcrc_update 0 st ⟨addr, T⟩ T.length =
      some (0, { st with signature := T.foldl mcrc_calculate_sw_crc 0 }) ∧
    (mcrc_update 0 st ⟨addr, T⟩ T.length).map (fun r => r.2.signature) =
      (mcrc_update 0 st2 ⟨addr, T⟩ T.length).map (fun r => r.2.signature) ∧
    mcrc_update 0 st ⟨addr, []⟩ 0 = some (0, { st with signature := 0 }) := by
  refine ⟨mcrc_update_short st addr T h8, ?_, mcrc_update_short st addr [] (by simp)⟩
  rw [mcrc_update_short st addr T h8, mcrc_update_short st2 addr T h8]
  rfl

/-- Witness of C16: the bytes `01 00` after a computation that left Signature 1. -/
theorem mcrc_update_short_discards_accumulation_witness :
    [1, 0].length < 8 ∧
    mcrc_update 0 used_state ⟨0x1000, [1, 0]⟩ [1, 0].length =
      some (0, { used_state with signature := [1, 0].foldl mcrc_calculate_sw_crc 0 }) :=
  ⟨by decide,
   (mcrc_update_short_discards_accumulation used_state zero_state 0x1000 [1, 0]
      (by decide)).1⟩

/-- C17 (the bit-serial step is linear over XOR). For all `a`, `b`, `x`, `y`,
`mcrc_calculate_sw_crc(a XOR b, x XOR y) =
mcrc_calculate_sw_crc(a, x) XOR mcrc_calculate_sw_crc(b, y)`; and for byte sequences `A`,
`B` of equal length the bit-serial fold from 0 of their byte-wise XOR is the XOR of
their folds. -/
theorem mcrc_calculate_sw_crc_linear (a b x y : Nat) (A B : List Nat)
    (h : A.length = B.length) :
    mcrc_calculate_sw_crc (a ^^^ b) (x ^^^ y) =
      mcrc_calculate_sw_crc a x ^^^ mcrc_calculate_sw_crc b y ∧
    (List.zipWith (fun p q => p ^^^ q) A B).foldl mcrc_calculate_sw_crc 0 =
      A.foldl mcrc_calculate_sw_crc 0 ^^^ B.foldl mcrc_calculate_sw_crc 0 := by
  refine ⟨sw_crc_xor a b x y, ?_⟩
  have := sw_fold_xor A B 0 0 h
  simpa using this

/-- Witness of C17: signatures `0x8000000000000001`, `0xff`, bytes `0x81`, `0x0f`, and the
sequences `01 02`, `03 04`. -/
theorem mcrc_calculate_sw_crc_linear_witness :
    [1, 2].length = [3, 4].length ∧
    mcrc_calculate_sw_crc (0x8000000000000001 ^^^ 0xff) (0x81 ^^^ 0x0f) =
      mcrc_calculate_sw_crc 0x8000000000000001 0x81 ^^^ mcrc_calculate_sw_crc 0xff 0x0f ∧
    (List.zipWith (fun p q => p ^^^ q) [1, 2] [3, 4]).foldl mcrc_calculate_sw_crc 0 =
      [1, 2].foldl mcrc_calculate_sw_crc 0 ^^^ [3, 4].foldl mcrc_calculate_sw_crc 0 :=
  ⟨by decide,
   mcrc_calculate_sw_crc_linear 0x8000000000000001 0xff 0x81 0x0f [1, 2] [3, 4] (by decide)⟩

/-- C18 (the bit-serial step equals the byte-wise, table-driven form). For every `s` and
`b`, `mcrc_calculate_sw_crc(s, b) =
((s << 8) mod 2^64) XOR mcrc_calculate_sw_crc(0, (s >> 56) XOR b)`; and for a 64-bit `s`
and a byte `b` the second operand is the entry `(s >> 56) XOR b` of the 256-entry table
`T[i] = mcrc_calculate_sw_crc(0, i)`. -/
theorem mcrc_calculate_sw_crc_table_form (s b : Nat) (hs : s < 2 ^ 64) (hb : b < 256) :
    mcrc_calculate_sw_crc s b =
      ((s <<< 8) % 2 ^ 64) ^^^ mcrc_calculate_sw_crc 0 ((s >>> 56) ^^^ b) ∧
    crc_table.length = 256 ∧
    (s >>> 56) ^^^ b < 256 ∧
    mcrc_calculate_sw_crc s b =
      ((s <<< 8) % 2 ^ 64) ^^^ crc_table.getD ((s >>> 56) ^^^ b) 0 := by
  have hidx : (s >>> 56) ^^^ b < 256 := by
    have h1 : s >>> 56 < 2 ^ 8 := by
      rw [Nat.shiftRight_eq_div_pow]
      omega
    exact Nat.xor_lt_two_pow h1 (by omega)
  refine ⟨sw_crc_table_form s b, by simp [crc_table], hidx, ?_⟩
  rw [crc_table_getD _ hidx]
  exact sw_crc_table_form s b

/-- Witness of C18 at `s = 0xfedcba9876543210`, `b = 0x5a`. -/
theorem mcrc_calculate_sw_crc_table_form_witness :
    ((0xfedcba9876543210 : Nat) < 2 ^ 64 ∧ (0x5a : Nat) < 256) ∧
    mcrc_calculate_sw_crc 0xfedcba9876543210 0x5a =
      ((0xfedcba9876543210 <<< 8) % 2 ^ 64) ^^^
        crc_table.getD ((0xfedcba9876543210 >>> 56) ^^^ 0x5a) 0 :=
  ⟨by decide,
   (mcrc_calculate_sw_crc_table_form 0xfedcba9876543210 0x5a (by decide)
      (by decide)).2.2.2⟩

end Mcrc
